import Mathlib

/-!
Shallow embedding of the `HashSet` data structure from `hash.cpp`.

The C++ class stores every key in one `std::list<int>` (`allKeys`), grouped so
that all keys of one bucket form a contiguous run and runs appear in ascending
bucket order.  `buckets` is a vector of list iterators, one per bucket, each
pointing at the first element of that bucket's run or at `allKeys.end()`.

Modelling choices:
- a list iterator is modelled as a position index into `allKeys`; the
  distinguished `allKeys.end()` iterator is modelled as `none`, so a stored
  bucket cursor is an `Option Nat`.  C++ `std::list` iterators are stable
  under insertion/erasure elsewhere, so when the model inserts at position
  `pos` every stored cursor `q` with `pos ≤ q` is shifted to `q + 1`, and when
  it erases position `i` every stored cursor `q` with `i < q` is shifted to
  `q - 1`: exactly the position the surviving iterator's element now has;
- `float` quantities (`maxLFactor`, load factors) are modelled as exact `Rat`
  arithmetic;
- the Sizing Table `sizes` (declared in the header, not part of `hash.cpp`)
  is an explicit parameter of the operations that read it;
- local variables of the C++ member functions are modelled as named top-level
  helper functions, with the correspondence noted at each.
-/

/-- The program state of a `HashSet` object: the backing list `allKeys`, the
bucket cursor table `buckets` (`none` = `allKeys.end()`), the element counter,
the maximum load factor and the current index into the Sizing Table. -/
structure HashSet where
  allKeys : List Int
  buckets : List (Option Nat)
  countElements : Nat
  maxLFactor : Rat
  currentPrimeIndex : Nat
  deriving Repr, DecidableEq

/-- `HashSet::bucket` (hash.cpp:231): `key % bucketCount`, adjusted by adding
`bucketCount` when the raw (truncating, C++-style) remainder is negative.
`Int.tmod` is the C++ `%` on `int`. -/
def bucketIdx (bucketCount : Nat) (key : Int) : Nat :=
  let m : Int := Int.tmod key (Int.ofNat bucketCount)
  (if m < 0 then m + Int.ofNat bucketCount else m).toNat

/-- `hs.bucket key`: the bucket index under the current bucket count
(`buckets.size()` in the source). -/
def HashSet.bucket (hs : HashSet) (key : Int) : Nat :=
  bucketIdx hs.buckets.length key

/-- `HashSet::bucketCount` (hash.cpp:213): `buckets.size()`. -/
def HashSet.bucketCount (hs : HashSet) : Nat :=
  hs.buckets.length

/-- `HashSet::size` (hash.cpp:203). -/
def HashSet.size (hs : HashSet) : Nat :=
  hs.countElements

/-- `HashSet::empty` (hash.cpp:208). -/
def HashSet.isEmptySet (hs : HashSet) : Bool :=
  hs.countElements == 0

/-- `HashSet::loadFactor` (hash.cpp:242): `countElements / buckets.size()`,
`0.0` when the bucket count is zero (`mkRat a b` is the rational `a / b`;
see `loadFactor_eq_div`). -/
def HashSet.loadFactor (hs : HashSet) : Rat :=
  if 0 < hs.bucketCount then mkRat hs.countElements hs.bucketCount else 0

/-- `HashSet::maxLoadFactor` getter (hash.cpp:249). -/
def HashSet.maxLoadFactor (hs : HashSet) : Rat :=
  hs.maxLFactor

/-- `l` is bucket-sorted under bucket count `bc`: for every pair of keys
appearing in that order, the first one's bucket index is not larger — the
contiguous-ascending-runs discipline, spec invariants I2 and I3 combined. -/
def BSorted (bc : Nat) (l : List Int) : Prop :=
  l.Pairwise fun x y => bucketIdx bc x ≤ bucketIdx bc y

instance (bc : Nat) (l : List Int) : Decidable (BSorted bc l) := by
  unfold BSorted
  infer_instance

/-- The keys of `l` hashing to bucket `b`, in list order: bucket `b`'s run
once `l` is bucket-sorted, and the content of the temporary list `temp[b]`
built by the `push_back` loop of `rehash` (hash.cpp:175). -/
def keysEq (bc b : Nat) (l : List Int) : List Int :=
  l.filter fun k => bucketIdx bc k = b

/-- The keys of `l` hashing to a bucket before `b`, in list order. -/
def keysLt (bc b : Nat) (l : List Int) : List Int :=
  l.filter fun k => bucketIdx bc k < b

/-- The keys of `l` hashing to a bucket after `b`, in list order. -/
def keysGt (bc b : Nat) (l : List Int) : List Int :=
  l.filter fun k => b < bucketIdx bc k

/-- The scan loop shared by `contains` (hash.cpp:109) — walk forward from a
bucket's first element while the scanned element still hashes to bucket `b`,
comparing each element to `key`. -/
def containsRun (bc b : Nat) (key : Int) : List Int → Bool
  | [] => false
  | k :: rest =>
    if bucketIdx bc k = b then
      if k = key then true else containsRun bc b key rest
    else false

/-- `HashSet::contains` (hash.cpp:103): start at `buckets[b]` (absent when the
cursor is `end()`), scan bucket `b`'s run for `key`. -/
def HashSet.contains (hs : HashSet) (key : Int) : Bool :=
  match hs.buckets.getD (hs.bucket key) none with
  | none => false
  | some i => containsRun hs.buckets.length (hs.bucket key) key (hs.allKeys.drop i)

/-- The scan loop of `find` (hash.cpp:125), returning the position of the
match; `i` is the position of the first scanned element. -/
def findRun (bc b : Nat) (key : Int) : Nat → List Int → Option Nat
  | _, [] => none
  | i, k :: rest =>
    if bucketIdx bc k = b then
      if k = key then some i else findRun bc b key (i + 1) rest
    else none

/-- `HashSet::find` (hash.cpp:120): iterator to the key, `end()` (= `none`)
when absent. -/
def HashSet.find (hs : HashSet) (key : Int) : Option Nat :=
  match hs.buckets.getD (hs.bucket key) none with
  | none => none
  | some i => findRun hs.buckets.length (hs.bucket key) key i (hs.allKeys.drop i)

/-- The scan of `rehash` over `sizes` (hash.cpp:165): index of the first
Sizing Table entry that is at least `newSize`, if any. -/
def sizesFound (sizes : List Nat) (newSize : Nat) : Option Nat :=
  (List.range sizes.length).find? fun i => decide (newSize ≤ sizes.getD i 0)

/-- The bucket count selected by `rehash` (hash.cpp:163-171): the first entry
`≥ newSize`, defaulting to `sizes.back()` when none qualifies. -/
def newBucketCount (sizes : List Nat) (newSize : Nat) : Nat :=
  match sizesFound sizes newSize with
  | some i => sizes.getD i 0
  | none => sizes.getLastD 0

/-- `HashSet::rehash` (hash.cpp:161).  The source scans `sizes` for the first
entry `≥ newSize` (`newBucketCount`; `currentPrimeIndex` is left unchanged
when none qualifies), distributes `allKeys` in order into per-bucket temporary
lists (`temp[b]` is `keysEq m b`, the order-preserving selection of the keys
hashing to `b` under the new count `m`, as built by the `push_back` loop at
hash.cpp:175), then splices the temporaries in ascending bucket order,
recording for each nonempty bucket its first position (the sum of the lengths
of the earlier temporaries) and re-accumulating the element count. -/
def HashSet.rehash (sizes : List Nat) (hs : HashSet) (newSize : Nat) : HashSet :=
  { allKeys := (List.range (newBucketCount sizes newSize)).flatMap
      fun b => keysEq (newBucketCount sizes newSize) b hs.allKeys
    buckets := (List.range (newBucketCount sizes newSize)).map fun b =>
      if (keysEq (newBucketCount sizes newSize) b hs.allKeys).isEmpty then none
      else some (((List.range b).map fun c =>
        (keysEq (newBucketCount sizes newSize) c hs.allKeys).length).sum)
    countElements := ((List.range (newBucketCount sizes newSize)).map fun b =>
      (keysEq (newBucketCount sizes newSize) b hs.allKeys).length).sum
    maxLFactor := hs.maxLFactor
    currentPrimeIndex :=
      match sizesFound sizes newSize with
      | some i => i
      | none => hs.currentPrimeIndex }

/-- The scan of `insert`'s nonempty-bucket branch (hash.cpp:73): starting at
position `i`, advance past the elements still hashing to bucket `b` and return
the first position after the run. -/
def runEndPos (bc b : Nat) : Nat → List Int → Nat
  | i, [] => i
  | i, k :: rest => if bucketIdx bc k = b then runEndPos bc b (i + 1) rest else i

/-- The scan of `insert`'s empty-bucket branch (hash.cpp:78): the first stored
cursor that is not `end()`, scanning the remaining bucket-table slots. -/
def firstSome : List (Option Nat) → Option Nat
  | [] => none
  | none :: rest => firstSome rest
  | some i :: _ => some i

/-- The local `pos` of `HashSet::insert` (hash.cpp:69-88): the end of bucket
`b`'s run when the bucket is nonempty, otherwise the stored head of the next
nonempty bucket, or the end of the whole list when there is none. -/
def HashSet.insertPos (hs : HashSet) (b : Nat) : Nat :=
  match hs.buckets.getD b none with
  | some i => runEndPos hs.buckets.length b i (hs.allKeys.drop i)
  | none => (firstSome (hs.buckets.drop (b + 1))).getD hs.allKeys.length

/-- The effect on a stored bucket cursor of inserting a list node at position
`pos`: iterators are stable, so a cursor to the element at position `q ≥ pos`
now addresses position `q + 1`. -/
def shiftUp (pos : Nat) (buckets : List (Option Nat)) : List (Option Nat) :=
  buckets.map (Option.map fun q => if pos ≤ q then q + 1 else q)

/-- The cursor-update test of `insert` (hash.cpp:94): `buckets[b]` is
retargeted when it is `end()` or when the new element (at `pos`) precedes the
stored head (`std::distance(buckets[b], newIt) < 0`). -/
def headNeedsUpdate (pos : Nat) (slot : Option Nat) : Bool :=
  match slot with
  | none => true
  | some q => decide (pos < q)

/-- Steps 3-6 of `HashSet::insert` (hash.cpp:67-99), after the growth check:
splice the key at the computed position, update the bucket cursor when
required, bump the element count. -/
def HashSet.insertNoGrow (hs : HashSet) (key : Int) : HashSet :=
  { allKeys := List.insertIdx (hs.insertPos (hs.bucket key)) key hs.allKeys
    buckets :=
      if headNeedsUpdate (hs.insertPos (hs.bucket key))
          ((shiftUp (hs.insertPos (hs.bucket key)) hs.buckets).getD (hs.bucket key) none)
      then (shiftUp (hs.insertPos (hs.bucket key)) hs.buckets).set (hs.bucket key)
        (some (hs.insertPos (hs.bucket key)))
      else shiftUp (hs.insertPos (hs.bucket key)) hs.buckets
    countElements := hs.countElements + 1
    maxLFactor := hs.maxLFactor
    currentPrimeIndex := hs.currentPrimeIndex }

/-- `HashSet::insert` (hash.cpp:58).  No-op on a contained key; otherwise grow
to `sizes[currentPrimeIndex + 1]` when the (pre-insert) load factor exceeds
the threshold and a larger Sizing Table entry exists, then insert. -/
def HashSet.insert (sizes : List Nat) (hs : HashSet) (key : Int) : HashSet :=
  if hs.contains key then hs
  else if hs.loadFactor > hs.maxLFactor ∧ hs.currentPrimeIndex + 1 < sizes.length then
    (hs.rehash sizes (sizes.getD (hs.currentPrimeIndex + 1) 0)).insertNoGrow key
  else hs.insertNoGrow key

/-- The cursor update of `HashSet::erase(Iterator)` (hash.cpp:147-154) before
the node at position `i` (hashing to bucket `b`) is unlinked: when the erased
element is the stored head of its bucket, retarget the cursor to the successor
if that still belongs to the bucket, else to `end()`. -/
def HashSet.eraseBucketsUpd (hs : HashSet) (i b : Nat) : List (Option Nat) :=
  if hs.buckets.getD b none = some i then
    if i + 1 < hs.allKeys.length ∧ bucketIdx hs.buckets.length (hs.allKeys.getD (i + 1) 0) = b
    then hs.buckets.set b (some (i + 1))
    else hs.buckets.set b none
  else hs.buckets

/-- `HashSet::erase(Iterator)` (hash.cpp:142).  Returns the updated state and
the returned iterator (the erased element's successor). -/
def HashSet.eraseIter (hs : HashSet) (it : Option Nat) : HashSet × Option Nat :=
  match it with
  | none => (hs, none)
  | some i =>
    ({ allKeys := hs.allKeys.eraseIdx i
       buckets := (hs.eraseBucketsUpd i (hs.bucket (hs.allKeys.getD i 0))).map
         (Option.map fun q => if i < q then q - 1 else q)
       countElements := hs.countElements - 1
       maxLFactor := hs.maxLFactor
       currentPrimeIndex := hs.currentPrimeIndex },
     if i < (hs.allKeys.eraseIdx i).length then some i else none)

/-- `HashSet::erase(int)` (hash.cpp:134): locate via `find`; erase when found,
no-op otherwise. -/
def HashSet.eraseKey (hs : HashSet) (key : Int) : HashSet :=
  match hs.find key with
  | none => hs
  | some i => (hs.eraseIter (some i)).1

/-- `HashSet::maxLoadFactor(float)` setter (hash.cpp:254): store the new
threshold; if the load factor now exceeds it, rehash to the first Sizing
Table entry past `currentPrimeIndex` whose resulting ratio satisfies the
threshold (searching `sizes[currentPrimeIndex+1 ..]` in order), if any. -/
def HashSet.setMaxLoadFactor (sizes : List Nat) (hs : HashSet) (v : Rat) : HashSet :=
  if ({ hs with maxLFactor := v } : HashSet).loadFactor > v then
    match ((List.range sizes.length).drop (hs.currentPrimeIndex + 1)).find?
        (fun i => decide (mkRat hs.countElements (sizes.getD i 0) ≤ v)) with
    | some i => ({ hs with maxLFactor := v } : HashSet).rehash sizes (sizes.getD i 0)
    | none => { hs with maxLFactor := v }
  else { hs with maxLFactor := v }

/-- The default constructor `HashSet::HashSet` (hash.cpp:21): empty backing
list, `sizes[0]` bucket slots all holding `end()`, count `0`, threshold `1.0`,
Sizing Table index `0`. -/
def HashSet.new (sizes : List Nat) : HashSet :=
  { allKeys := []
    buckets := List.replicate (sizes.getD 0 0) none
    countElements := 0
    maxLFactor := 1
    currentPrimeIndex := 0 }

/-- Full iteration from `begin()` to `end()` (hash.cpp:12) walks `allKeys`. -/
def HashSet.toList (hs : HashSet) : List Int :=
  hs.allKeys

/-- Modelled from the spec: the concrete Sizing Table values live in the
header `hash.hpp`, which is not part of `hash.cpp`; the spec's illustrative
scenarios fix the table `[7, 17]`, used here for all concrete instances. -/
def specSizes : List Nat := [7, 17]

/-- The legal Sizing Tables: nonempty, strictly ascending, positive entries
(the spec calls the table "an ordered, ascending sequence of candidate bucket
counts" and a "monotonically increasing list of valid bucket counts"). -/
def GoodSizes (sizes : List Nat) : Prop :=
  sizes ≠ [] ∧ sizes.Pairwise (· < ·) ∧ ∀ s ∈ sizes, 0 < s

instance (sizes : List Nat) : Decidable (GoodSizes sizes) := by
  unfold GoodSizes
  infer_instance

/-- The bucket table determined by a backing list: slot `b` holds the position
of the first element hashing to `b`, or `none` when the bucket is empty. -/
def bucketsOf (bc : Nat) (keys : List Int) : List (Option Nat) :=
  (List.range bc).map fun b => keys.findIdx? fun k => bucketIdx bc k = b

/-- The representation invariant of a `HashSet` state: a positive bucket count
drawn from the Sizing Table, a valid table index, an accurate element count,
no duplicate keys (spec I1), a bucket-sorted backing list (I2/I3) and a bucket
table whose every slot is the position of its bucket's first element (I4). -/
def WF (sizes : List Nat) (hs : HashSet) : Prop :=
  0 < hs.buckets.length ∧
  hs.buckets.length ∈ sizes ∧
  hs.currentPrimeIndex < sizes.length ∧
  hs.countElements = hs.allKeys.length ∧
  hs.allKeys.Nodup ∧
  BSorted hs.buckets.length hs.allKeys ∧
  hs.buckets = bucketsOf hs.buckets.length hs.allKeys

instance (sizes : List Nat) (hs : HashSet) : Decidable (WF sizes hs) := by
  unfold WF
  infer_instance
/-! ### Arithmetic facts about the bucket index function -/

theorem ofNat_coe (b : Nat) : Int.ofNat b = (b : Int) := rfl

theorem neg_lt_tmod (a : Int) (b : Nat) (hb : 0 < b) : -(b : Int) < Int.tmod a (b : Int) := by
  cases a with
  | ofNat m =>
    have h : (0 : Int) ≤ Int.tmod (Int.ofNat m) (b : Int) := by
      rw [← ofNat_coe b]
      show (0 : Int) ≤ Int.ofNat (m % b)
      exact Int.ofNat_nonneg _
    have hb' : (0 : Int) < (b : Int) := by exact_mod_cast hb
    omega
  | negSucc m =>
    rw [← ofNat_coe b]
    show -(Int.ofNat b) < -Int.ofNat (Nat.succ m % b)
    have h : Int.ofNat (Nat.succ m % b) < Int.ofNat b :=
      Int.ofNat_lt.mpr (Nat.mod_lt _ hb)
    omega

theorem tmod_emod (a : Int) (b : Nat) : Int.tmod a (b : Int) % (b : Int) = a % (b : Int) := by
  rw [Int.tmod_def]
  have h : a - (b : Int) * a.tdiv (b : Int) = a + (b : Int) * (-(a.tdiv (b : Int))) := by ring
  rw [h, Int.add_mul_emod_self_left]

theorem bucketIdx_cast (bc : Nat) (key : Int) (hbc : 0 < bc) :
    (bucketIdx bc key : Int) = key % (bc : Int) := by
  unfold bucketIdx
  rw [ofNat_coe]
  set t := Int.tmod key (bc : Int) with ht
  have hbc' : (0 : Int) < (bc : Int) := by exact_mod_cast hbc
  have hlt : t < (bc : Int) := Int.tmod_lt_of_pos key hbc'
  have hgt : -(bc : Int) < t := neg_lt_tmod key bc hbc
  have hmod : t % (bc : Int) = key % (bc : Int) := tmod_emod key bc
  by_cases hneg : t < 0
  · simp only [hneg, if_pos]
    have h0 : 0 ≤ t + (bc : Int) := by omega
    have h1 : t + (bc : Int) < (bc : Int) := by omega
    have h2 : (t + (bc : Int)) % (bc : Int) = key % (bc : Int) := by
      have h3 : t + (bc : Int) = t + (bc : Int) * 1 := by ring
      rw [h3, Int.add_mul_emod_self_left, hmod]
    rw [← h2, Int.emod_eq_of_lt h0 h1, Int.toNat_of_nonneg h0]
  · simp only [hneg, if_neg, not_false_iff]
    have h0 : 0 ≤ t := by omega
    rw [← hmod, Int.emod_eq_of_lt h0 hlt, Int.toNat_of_nonneg h0]

theorem bucketIdx_lt (bc : Nat) (key : Int) (hbc : 0 < bc) : bucketIdx bc key < bc := by
  have h := bucketIdx_cast bc key hbc
  have hbc' : (0 : Int) < (bc : Int) := by exact_mod_cast hbc
  have h2 : key % (bc : Int) < (bc : Int) := Int.emod_lt_of_pos key hbc'
  omega

/-! ### Bucket-sorted decomposition -/

theorem mem_keysEq {bc b : Nat} {l : List Int} {x : Int} :
    x ∈ keysEq bc b l ↔ x ∈ l ∧ bucketIdx bc x = b := by
  simp [keysEq, List.mem_filter]

theorem mem_keysLt {bc b : Nat} {l : List Int} {x : Int} :
    x ∈ keysLt bc b l ↔ x ∈ l ∧ bucketIdx bc x < b := by
  simp [keysLt, List.mem_filter]

theorem mem_keysGt {bc b : Nat} {l : List Int} {x : Int} :
    x ∈ keysGt bc b l ↔ x ∈ l ∧ b < bucketIdx bc x := by
  simp [keysGt, List.mem_filter]

theorem bsorted_cons {bc : Nat} {k : Int} {t : List Int} (h : BSorted bc (k :: t)) :
    (∀ y ∈ t, bucketIdx bc k ≤ bucketIdx bc y) ∧ BSorted bc t := by
  rw [BSorted, List.pairwise_cons] at h
  exact h

theorem bsorted_decomp (bc b : Nat) (l : List Int) (h : BSorted bc l) :
    l = keysLt bc b l ++ (keysEq bc b l ++ keysGt bc b l) := by
  induction l with
  | nil => rfl
  | cons k t ih =>
    obtain ⟨hk, ht⟩ := bsorted_cons h
    have iht := ih ht
    rcases Nat.lt_trichotomy (bucketIdx bc k) b with hlt | heq | hgt
    · have e1 : keysLt bc b (k :: t) = k :: keysLt bc b t := by
        simp [keysLt, List.filter_cons, hlt]
      have e2 : keysEq bc b (k :: t) = keysEq bc b t := by
        have hne : ¬ bucketIdx bc k = b := by omega
        simp [keysEq, List.filter_cons, hne]
      have e3 : keysGt bc b (k :: t) = keysGt bc b t := by
        have hng : ¬ b < bucketIdx bc k := by omega
        simp [keysGt, List.filter_cons, hng]
      rw [e1, e2, e3, List.cons_append]
      exact congrArg (k :: ·) iht
    · have e1 : keysLt bc b (k :: t) = keysLt bc b t := by
        have hng : ¬ bucketIdx bc k < b := by omega
        simp [keysLt, List.filter_cons, hng]
      have e2 : keysEq bc b (k :: t) = k :: keysEq bc b t := by
        simp [keysEq, List.filter_cons, heq]
      have e3 : keysGt bc b (k :: t) = keysGt bc b t := by
        have hng : ¬ b < bucketIdx bc k := by omega
        simp [keysGt, List.filter_cons, hng]
      have eLt : keysLt bc b t = [] := by
        rw [keysLt, List.filter_eq_nil_iff]
        intro y hy
        have := hk y hy
        simp only [decide_eq_true_eq]
        omega
      rw [e1, e2, e3, eLt]
      rw [eLt, List.nil_append] at iht
      simp [iht.symm]
    · have e1 : keysLt bc b (k :: t) = keysLt bc b t := by
        have hng : ¬ bucketIdx bc k < b := by omega
        simp [keysLt, List.filter_cons, hng]
      have e2 : keysEq bc b (k :: t) = keysEq bc b t := by
        have hne : ¬ bucketIdx bc k = b := by omega
        simp [keysEq, List.filter_cons, hne]
      have e3 : keysGt bc b (k :: t) = k :: keysGt bc b t := by
        simp [keysGt, List.filter_cons, hgt]
      have eLt : keysLt bc b t = [] := by
        rw [keysLt, List.filter_eq_nil_iff]
        intro y hy
        have := hk y hy
        simp only [decide_eq_true_eq]
        omega
      have eEq : keysEq bc b t = [] := by
        rw [keysEq, List.filter_eq_nil_iff]
        intro y hy
        have := hk y hy
        simp only [decide_eq_true_eq]
        omega
      rw [e1, e2, e3, eLt, eEq]
      rw [eLt, eEq, List.nil_append, List.nil_append] at iht
      simp [iht.symm]

theorem findIdx?_keysLt_eq_none (bc b : Nat) (l : List Int) :
    ((keysLt bc b l).findIdx? fun k => bucketIdx bc k = b) = none := by
  rw [List.findIdx?_eq_none_iff]
  intro x hx
  have h2 := (mem_keysLt.mp hx).2
  simp only [Bool.not_eq_true, decide_eq_false_iff_not]
  omega

theorem findIdx?_keysGt_eq_none (bc b : Nat) (l : List Int) :
    ((keysGt bc b l).findIdx? fun k => bucketIdx bc k = b) = none := by
  rw [List.findIdx?_eq_none_iff]
  intro x hx
  have h2 := (mem_keysGt.mp hx).2
  simp only [Bool.not_eq_true, decide_eq_false_iff_not]
  omega

theorem findIdx?_bucket (bc b : Nat) (l : List Int) (h : BSorted bc l) :
    (l.findIdx? fun k => bucketIdx bc k = b) =
      if keysEq bc b l = [] then none else some (keysLt bc b l).length := by
  conv_lhs => rw [bsorted_decomp bc b l h]
  rw [List.findIdx?_append, List.findIdx?_append]
  rw [findIdx?_keysLt_eq_none, findIdx?_keysGt_eq_none]
  cases hE : keysEq bc b l with
  | nil => simp
  | cons k rest =>
    have hkmem : k ∈ keysEq bc b l := by rw [hE]; exact List.mem_cons_self _ _
    have hkb : bucketIdx bc k = b := (mem_keysEq.mp hkmem).2
    simp [List.findIdx?_cons, hkb]

theorem length_bucketsOf (bc : Nat) (l : List Int) : (bucketsOf bc l).length = bc := by
  simp [bucketsOf]

theorem bucketsOf_getElem? {b bc : Nat} (l : List Int) (hb : b < bc) :
    (bucketsOf bc l)[b]? = some (l.findIdx? fun k => bucketIdx bc k = b) := by
  simp [bucketsOf, List.getElem?_map, List.getElem?_range hb]

theorem bucketsOf_getD {b bc : Nat} (l : List Int) (hb : b < bc) :
    (bucketsOf bc l).getD b none = (l.findIdx? fun k => bucketIdx bc k = b) := by
  simp [List.getD_eq_getElem?_getD, bucketsOf_getElem? l hb]

theorem bucketsOf_getElem?_ge {b bc : Nat} (l : List Int) (hb : bc ≤ b) :
    (bucketsOf bc l)[b]? = none := by
  rw [List.getElem?_eq_none]
  simp [length_bucketsOf, hb]

theorem BSorted.sublist {bc : Nat} {l l' : List Int} (hsub : l'.Sublist l)
    (h : BSorted bc l) : BSorted bc l' :=
  List.Pairwise.sublist hsub h

/-! ### The run scans of `contains`, `find` and `insert` -/

theorem takeWhile_run {α : Type} (p : α → Bool) (R C : List α) (hR : ∀ x ∈ R, p x = true)
    (hC : ∀ c ∈ C.head?, p c = false) : (R ++ C).takeWhile p = R := by
  induction R with
  | nil =>
    cases C with
    | nil => rfl
    | cons c cs =>
      have := hC c rfl
      simp [List.takeWhile_cons, this]
  | cons a R ih =>
    have ha := hR a (List.mem_cons_self _ _)
    simp only [List.cons_append, List.takeWhile_cons, ha, if_true]
    rw [ih fun x hx => hR x (List.mem_cons_of_mem _ hx)]

theorem runEndPos_eq (bc b : Nat) (l' : List Int) : ∀ i,
    runEndPos bc b i l' = i + (l'.takeWhile fun k => bucketIdx bc k = b).length := by
  induction l' with
  | nil => intro i; simp [runEndPos]
  | cons k rest ih =>
    intro i
    by_cases hk : bucketIdx bc k = b
    · simp only [runEndPos, hk, if_true, List.takeWhile_cons, decide_eq_true_eq]
      rw [ih (i + 1)]
      simp
      omega
    · simp [runEndPos, hk, List.takeWhile_cons]

theorem containsRun_eq_mem_takeWhile (bc b : Nat) (key : Int) (l' : List Int) :
    containsRun bc b key l' =
      decide (key ∈ l'.takeWhile fun k => bucketIdx bc k = b) := by
  induction l' with
  | nil => simp [containsRun]
  | cons k rest ih =>
    by_cases hk : bucketIdx bc k = b
    · by_cases hkey : k = key
      · simp [containsRun, hk, hkey, List.takeWhile_cons]
      · have hne : ¬ key = k := fun h => hkey h.symm
        simp [containsRun, hk, hkey, List.takeWhile_cons, hne, ih]
    · simp [containsRun, hk, List.takeWhile_cons]

theorem findRun_eq (bc b : Nat) (key : Int) (l' : List Int) : ∀ i,
    findRun bc b key i l' =
      ((l'.takeWhile fun k => bucketIdx bc k = b).findIdx? fun k => k = key).map
        (· + i) := by
  induction l' with
  | nil => intro i; simp [findRun]
  | cons k rest ih =>
    intro i
    by_cases hk : bucketIdx bc k = b
    · by_cases hkey : k = key
      · subst hkey
        simp [findRun, hk, List.takeWhile_cons, List.findIdx?_cons]
      · simp only [findRun, hk, if_true, hkey, if_false, List.takeWhile_cons,
          decide_eq_true_eq, List.findIdx?_cons, decide_eq_false hkey]
        rw [ih (i + 1)]
        rw [List.findIdx?_start_succ, Option.map_map]
        congr 1
        funext x
        simp only [Function.comp_apply]
        omega
    · simp [findRun, hk, List.takeWhile_cons]

theorem find_eq_none_iff (hs : HashSet) (key : Int) :
    hs.find key = none ↔ hs.contains key = false := by
  unfold HashSet.find HashSet.contains
  cases hgd : hs.buckets.getD (hs.bucket key) none with
  | none => simp only [hgd]
  | some i =>
    simp only [hgd]
    rw [findRun_eq, containsRun_eq_mem_takeWhile]
    simp [Option.map_eq_none', List.findIdx?_eq_none_iff]
    constructor
    · intro h hmem
      exact h key hmem rfl
    · intro h x hx he
      exact h (he ▸ hx)

theorem drop_keysLt {bc b : Nat} {l : List Int} (h : BSorted bc l) :
    l.drop (keysLt bc b l).length = keysEq bc b l ++ keysGt bc b l := by
  have hd := bsorted_decomp bc b l h
  nth_rewrite 2 [hd]
  exact List.drop_left _ _

/-- The anatomy of a `contains`/`find` lookup in a well-formed state: the
bucket-table slot for `key`'s bucket, and the scanned suffix. -/
theorem lookup_anatomy {sizes : List Nat} {hs : HashSet} (hWF : WF sizes hs) (key : Int) :
    (hs.buckets.getD (hs.bucket key) none =
      if keysEq hs.buckets.length (hs.bucket key) hs.allKeys = [] then none
      else some (keysLt hs.buckets.length (hs.bucket key) hs.allKeys).length) ∧
    hs.allKeys.drop (keysLt hs.buckets.length (hs.bucket key) hs.allKeys).length =
      keysEq hs.buckets.length (hs.bucket key) hs.allKeys ++
        keysGt hs.buckets.length (hs.bucket key) hs.allKeys := by
  obtain ⟨hpos, _, _, _, _, hsort, hbk⟩ := hWF
  refine ⟨?_, drop_keysLt hsort⟩
  unfold HashSet.bucket
  conv_lhs => rw [hbk]
  rw [length_bucketsOf]
  rw [bucketsOf_getD hs.allKeys (bucketIdx_lt _ key hpos)]
  exact findIdx?_bucket _ _ _ hsort

theorem takeWhile_keysEq {bc b : Nat} {l : List Int} :
    ((keysEq bc b l ++ keysGt bc b l).takeWhile fun k => bucketIdx bc k = b) =
      keysEq bc b l := by
  apply takeWhile_run
  · intro x hx
    simp [(mem_keysEq.mp hx).2]
  · intro c hc
    cases hG : keysGt bc b l with
    | nil => rw [hG] at hc; simp at hc
    | cons g gs =>
      rw [hG] at hc
      simp only [List.head?_cons, Option.mem_def, Option.some.injEq] at hc
      have hg : b < bucketIdx bc g :=
        (mem_keysGt.mp (hG ▸ List.mem_cons_self g gs)).2
      subst hc
      simp only [decide_eq_false_iff_not]
      omega

theorem contains_iff_mem {sizes : List Nat} {hs : HashSet} (hWF : WF sizes hs) (key : Int) :
    hs.contains key = true ↔ key ∈ hs.allKeys := by
  have hpos := hWF.1
  obtain ⟨hgd, hdrop⟩ := lookup_anatomy hWF key
  unfold HashSet.contains
  cases hkE : keysEq hs.buckets.length (hs.bucket key) hs.allKeys with
  | nil =>
    rw [hkE, if_pos rfl] at hgd
    simp only [hgd]
    simp only [Bool.false_eq_true, false_iff]
    intro hmem
    have hmem2 : key ∈ keysEq hs.buckets.length (hs.bucket key) hs.allKeys :=
      mem_keysEq.mpr ⟨hmem, rfl⟩
    rw [hkE] at hmem2
    exact absurd hmem2 (List.not_mem_nil key)
  | cons kk rest =>
    have hne : keysEq hs.buckets.length (hs.bucket key) hs.allKeys ≠ [] := by
      rw [hkE]
      exact List.cons_ne_nil _ _
    rw [if_neg hne] at hgd
    simp only [hgd]
    rw [containsRun_eq_mem_takeWhile, hdrop, takeWhile_keysEq]
    simp only [decide_eq_true_eq]
    constructor
    · intro h
      exact (mem_keysEq.mp h).1
    · intro h
      exact mem_keysEq.mpr ⟨h, rfl⟩

/-! ### The rehash engine -/

theorem flatMap_eq_nil_of {α β : Type} (ns : List α) (g : α → List β)
    (h : ∀ c ∈ ns, g c = []) : ns.flatMap g = [] := by
  induction ns with
  | nil => rfl
  | cons a t ih =>
    rw [List.flatMap_cons, h a (List.mem_cons_self _ _), List.nil_append]
    exact ih fun c hc => h c (List.mem_cons_of_mem _ hc)

theorem flatMap_if_eq {ns : List Nat} {b : Nat} (hnd : ns.Nodup) (hb : b ∈ ns)
    (L : List Int) : (ns.flatMap fun c => if c = b then L else []) = L := by
  induction ns with
  | nil => cases hb
  | cons a t ih =>
    rw [List.flatMap_cons]
    by_cases ha : a = b
    · subst ha
      rw [if_pos rfl]
      have hnotin : a ∉ t := (List.nodup_cons.mp hnd).1
      have h2 : (t.flatMap fun c => if c = a then L else []) = [] := by
        apply flatMap_eq_nil_of
        intro c hc
        have : c ≠ a := fun h => hnotin (h ▸ hc)
        rw [if_neg this]
      rw [h2, List.append_nil]
    · rw [if_neg ha]
      have hbt : b ∈ t := by
        cases List.mem_cons.mp hb with
        | inl h => exact absurd h.symm ha
        | inr h => exact h
      rw [ih (List.nodup_cons.mp hnd).2 hbt, List.nil_append]

theorem flatMap_cons_perm {ns : List Nat} {b0 : Nat} (hnd : ns.Nodup) (hb0 : b0 ∈ ns)
    (g : Nat → List Int) (k : Int) :
    (ns.flatMap fun b => if b0 = b then k :: g b else g b).Perm (k :: ns.flatMap g) := by
  induction ns with
  | nil => cases hb0
  | cons a t ih =>
    rw [List.flatMap_cons, List.flatMap_cons]
    by_cases ha : b0 = a
    · subst ha
      rw [if_pos rfl]
      have hnotin : b0 ∉ t := (List.nodup_cons.mp hnd).1
      have hcongr : (t.flatMap fun b => if b0 = b then k :: g b else g b) = t.flatMap g := by
        rw [List.flatMap, List.flatMap]
        congr 1
        apply List.map_congr_left
        intro b hb
        have : b0 ≠ b := fun h => hnotin (h ▸ hb)
        rw [if_neg this]
      rw [hcongr, List.cons_append]
    · rw [if_neg ha]
      have hb0t : b0 ∈ t := by
        cases List.mem_cons.mp hb0 with
        | inl h => exact absurd h ha
        | inr h => exact h
      exact (List.Perm.append_left (g a) (ih (List.nodup_cons.mp hnd).2 hb0t)).trans
        List.perm_middle

theorem flatMap_keysEq_perm (m : Nat) (l : List Int) (h : ∀ k ∈ l, bucketIdx m k < m) :
    ((List.range m).flatMap fun b => keysEq m b l).Perm l := by
  induction l with
  | nil =>
    have : ((List.range m).flatMap fun b => keysEq m b ([] : List Int)) = [] :=
      flatMap_eq_nil_of _ _ fun c _ => rfl
    rw [this]
  | cons k t ih =>
    have hk : bucketIdx m k < m := h k (List.mem_cons_self _ _)
    have e : (fun b => keysEq m b (k :: t)) =
        fun b => if bucketIdx m k = b then k :: keysEq m b t else keysEq m b t := by
      funext b
      by_cases hb : bucketIdx m k = b
      · simp [keysEq, List.filter_cons, hb]
      · simp [keysEq, List.filter_cons, hb]
    rw [congrArg (List.flatMap (List.range m)) e]
    exact (flatMap_cons_perm (List.nodup_range _) (List.mem_range.mpr hk) _ k).trans
      ((ih fun x hx => h x (List.mem_cons_of_mem _ hx)).cons k)

theorem bsorted_flatMap_keysEq (m : Nat) (l : List Int) :
    BSorted m ((List.range m).flatMap fun b => keysEq m b l) := by
  rw [BSorted, List.pairwise_flatMap]
  constructor
  · intro b _
    rw [List.pairwise_iff_getElem]
    intro i j hi hj _
    have hx := (mem_keysEq.mp (List.getElem_mem hi)).2
    have hy := (mem_keysEq.mp (List.getElem_mem hj)).2
    omega
  · apply (List.pairwise_lt_range m).imp
    intro b1 b2 hlt x hx y hy
    have h1 := (mem_keysEq.mp hx).2
    have h2 := (mem_keysEq.mp hy).2
    omega

theorem flatMap_if_lt (b n : Nat) (hbn : b ≤ n) (g : Nat → List Int) :
    ((List.range n).flatMap fun c => if c < b then g c else []) =
      (List.range b).flatMap g := by
  have h : n = b + (n - b) := by omega
  rw [h, List.range_add, List.flatMap_append]
  have h1 : ((List.range b).flatMap fun c => if c < b then g c else []) =
      (List.range b).flatMap g := by
    rw [List.flatMap, List.flatMap]
    congr 1
    apply List.map_congr_left
    intro c hc
    rw [if_pos (List.mem_range.mp hc)]
  have h2 : (((List.range (n - b)).map (b + ·)).flatMap fun c => if c < b then g c else []) =
      [] := by
    apply flatMap_eq_nil_of
    intro c hc
    obtain ⟨x, _, hx⟩ := List.mem_map.mp hc
    have : ¬ c < b := by omega
    rw [if_neg this]
  rw [h1, h2, List.append_nil]

theorem keysEq_flatMap (m b : Nat) (l : List Int) (hb : b < m) :
    keysEq m b ((List.range m).flatMap fun c => keysEq m c l) = keysEq m b l := by
  rw [keysEq, List.filter_flatMap]
  have e : ((List.range m).flatMap
        fun c => (keysEq m c l).filter fun k => bucketIdx m k = b) =
      (List.range m).flatMap fun c => if c = b then keysEq m b l else [] := by
    rw [List.flatMap, List.flatMap]
    congr 1
    apply List.map_congr_left
    intro c _
    by_cases hc : c = b
    · subst hc
      rw [if_pos rfl]
      apply List.filter_eq_self.mpr
      intro x hx
      simp [(mem_keysEq.mp hx).2]
    · rw [if_neg hc]
      apply List.filter_eq_nil_iff.mpr
      intro x hx
      have := (mem_keysEq.mp hx).2
      simp only [decide_eq_true_eq]
      omega
  rw [e, flatMap_if_eq (List.nodup_range _) (List.mem_range.mpr hb)]

theorem keysLt_flatMap (m b : Nat) (l : List Int) (hb : b ≤ m) :
    keysLt m b ((List.range m).flatMap fun c => keysEq m c l) =
      (List.range b).flatMap fun c => keysEq m c l := by
  rw [keysLt, List.filter_flatMap]
  have e : ((List.range m).flatMap
        fun c => (keysEq m c l).filter fun k => bucketIdx m k < b) =
      (List.range m).flatMap fun c => if c < b then keysEq m c l else [] := by
    rw [List.flatMap, List.flatMap]
    congr 1
    apply List.map_congr_left
    intro c _
    by_cases hc : c < b
    · rw [if_pos hc]
      apply List.filter_eq_self.mpr
      intro x hx
      have := (mem_keysEq.mp hx).2
      simp only [decide_eq_true_eq]
      omega
    · rw [if_neg hc]
      apply List.filter_eq_nil_iff.mpr
      intro x hx
      have := (mem_keysEq.mp hx).2
      simp only [decide_eq_true_eq]
      omega
  rw [e, flatMap_if_lt b m hb]

theorem rehash_buckets (sizes : List Nat) (hs : HashSet) (n : Nat) :
    (hs.rehash sizes n).buckets =
      bucketsOf (newBucketCount sizes n) (hs.rehash sizes n).allKeys := by
  simp only [HashSet.rehash, bucketsOf]
  apply List.map_congr_left
  intro b hb
  have hbm : b < newBucketCount sizes n := List.mem_range.mp hb
  rw [findIdx?_bucket _ _ _ (bsorted_flatMap_keysEq (newBucketCount sizes n) hs.allKeys)]
  rw [keysEq_flatMap _ _ _ hbm, keysLt_flatMap _ _ _ (Nat.le_of_lt hbm)]
  by_cases hE : keysEq (newBucketCount sizes n) b hs.allKeys = []
  · simp [hE]
  · simp only [hE, List.isEmpty_eq_true, if_neg, if_false, List.length_flatMap]
    rfl

theorem newBucketCount_mem (sizes : List Nat) (n : Nat) (hne : sizes ≠ []) :
    newBucketCount sizes n ∈ sizes := by
  rw [newBucketCount]
  cases hf : sizesFound sizes n with
  | none =>
    show sizes.getLastD 0 ∈ sizes
    rw [List.getLastD_eq_getLast?]
    cases hl : sizes.getLast? with
    | none => exact absurd (List.getLast?_eq_none_iff.mp hl) hne
    | some a =>
      simp only [Option.getD_some]
      exact List.mem_of_getLast?_eq_some hl
  | some i =>
    show sizes.getD i 0 ∈ sizes
    have hi := List.mem_range.mp (List.mem_of_find?_eq_some hf)
    rw [List.getD_eq_getElem _ _ hi]
    exact List.getElem_mem hi

theorem newBucketCount_pos (sizes : List Nat) (n : Nat) (hGS : GoodSizes sizes) :
    0 < newBucketCount sizes n :=
  hGS.2.2 _ (newBucketCount_mem sizes n hGS.1)

theorem rehash_allKeys (sizes : List Nat) (hs : HashSet) (n : Nat) :
    (hs.rehash sizes n).allKeys =
      (List.range (newBucketCount sizes n)).flatMap
        fun b => keysEq (newBucketCount sizes n) b hs.allKeys := rfl

theorem rehash_count_eq_length (sizes : List Nat) (hs : HashSet) (n : Nat) :
    (hs.rehash sizes n).countElements = (hs.rehash sizes n).allKeys.length := by
  simp only [HashSet.rehash, List.length_flatMap]
  rfl

theorem rehash_perm {sizes : List Nat} {hs : HashSet} (hGS : GoodSizes sizes) (n : Nat) :
    (hs.rehash sizes n).allKeys.Perm hs.allKeys := by
  rw [rehash_allKeys]
  exact flatMap_keysEq_perm _ _ fun k _ =>
    bucketIdx_lt _ k (newBucketCount_pos sizes n hGS)

theorem rehash_WF {sizes : List Nat} {hs : HashSet} (hGS : GoodSizes sizes)
    (hWF : WF sizes hs) (n : Nat) :
    WF sizes (hs.rehash sizes n) ∧ (hs.rehash sizes n).allKeys.Perm hs.allKeys ∧
      (hs.rehash sizes n).countElements = hs.countElements ∧
      (hs.rehash sizes n).maxLFactor = hs.maxLFactor ∧
      (hs.rehash sizes n).bucketCount = newBucketCount sizes n := by
  obtain ⟨hpos, hmem, hcpi, hcount, hnodup, hsort, hbk⟩ := hWF
  have hm : 0 < newBucketCount sizes n := newBucketCount_pos sizes n hGS
  have hlen : (hs.rehash sizes n).buckets.length = newBucketCount sizes n := by
    simp [HashSet.rehash]
  have hperm : (hs.rehash sizes n).allKeys.Perm hs.allKeys := rehash_perm hGS n
  refine ⟨⟨?_, ?_, ?_, ?_, ?_, ?_, ?_⟩, hperm, ?_, ?_, ?_⟩
  · rw [hlen]
    exact hm
  · rw [hlen]
    exact newBucketCount_mem sizes n hGS.1
  · simp only [HashSet.rehash]
    cases hf : sizesFound sizes n with
    | none => exact hcpi
    | some i => exact List.mem_range.mp (List.mem_of_find?_eq_some hf)
  · exact rehash_count_eq_length sizes hs n
  · exact hperm.nodup_iff.mpr hnodup
  · rw [hlen, rehash_allKeys]
    exact bsorted_flatMap_keysEq _ _
  · rw [hlen]
    exact rehash_buckets sizes hs n
  · rw [rehash_count_eq_length sizes hs n, hperm.length_eq, hcount]
  · simp [HashSet.rehash]
  · rw [HashSet.bucketCount, hlen]

/-! ### Selection of the new bucket count from the Sizing Table -/

theorem find?_first_sorted {p : Nat → Bool} :
    ∀ {ns : List Nat} {i : Nat}, ns.Pairwise (· < ·) → ns.find? p = some i →
      i ∈ ns ∧ p i = true ∧ ∀ j ∈ ns, j < i → p j = false := by
  intro ns
  induction ns with
  | nil => intro i _ h; cases h
  | cons a t ih =>
    intro i hp hf
    by_cases ha : p a
    · rw [List.find?_cons_of_pos _ ha] at hf
      have hai : a = i := by injection hf
      subst hai
      refine ⟨List.mem_cons_self _ _, ha, ?_⟩
      intro j hj hji
      cases List.mem_cons.mp hj with
      | inl h => omega
      | inr h =>
        have := (List.pairwise_cons.mp hp).1 j h
        omega
    · rw [List.find?_cons_of_neg _ ha] at hf
      obtain ⟨hmem, hpi, hrest⟩ := ih (List.pairwise_cons.mp hp).2 hf
      refine ⟨List.mem_cons_of_mem _ hmem, hpi, ?_⟩
      intro j hj hji
      cases List.mem_cons.mp hj with
      | inl h =>
        subst h
        exact Bool.eq_false_iff.mpr ha
      | inr h => exact hrest j h hji

theorem sizesFound_some {sizes : List Nat} {n i : Nat} (h : sizesFound sizes n = some i) :
    i < sizes.length ∧ n ≤ sizes.getD i 0 ∧ ∀ j < i, sizes.getD j 0 < n := by
  obtain ⟨hmem, hp, hrest⟩ := find?_first_sorted (List.pairwise_lt_range _) h
  have hilen := List.mem_range.mp hmem
  refine ⟨hilen, by simpa using hp, ?_⟩
  intro j hj
  have hjmem : j ∈ List.range sizes.length := List.mem_range.mpr (by omega)
  have := hrest j hjmem hj
  simpa using this

theorem sizesFound_none {sizes : List Nat} {n : Nat} (h : sizesFound sizes n = none) :
    ∀ s ∈ sizes, s < n := by
  intro s hs
  obtain ⟨j, hj, rfl⟩ := List.mem_iff_getElem.mp hs
  have h2 := List.find?_eq_none.mp h j (List.mem_range.mpr hj)
  simp only [decide_eq_true_eq, Nat.not_le] at h2
  rw [List.getD_eq_getElem _ _ hj] at h2
  exact h2

theorem sizesFound_min {sizes : List Nat} (hGS : GoodSizes sizes) {n i : Nat}
    (h : sizesFound sizes n = some i) : ∀ s ∈ sizes, n ≤ s → sizes.getD i 0 ≤ s := by
  obtain ⟨hilen, _, hfirst⟩ := sizesFound_some h
  intro s hs hns
  obtain ⟨j, hj, rfl⟩ := List.mem_iff_getElem.mp hs
  rcases Nat.lt_trichotomy j i with hlt | heq | hgt
  · have := hfirst j hlt
    rw [List.getD_eq_getElem _ _ hj] at this
    omega
  · subst heq
    rw [List.getD_eq_getElem _ _ hilen]
  · have hstrict := List.pairwise_iff_getElem.mp hGS.2.1 i j hilen hj hgt
    rw [List.getD_eq_getElem _ _ hilen]
    omega

theorem sizesFound_getD {sizes : List Nat} (hGS : GoodSizes sizes) {t : Nat}
    (ht : t < sizes.length) : sizesFound sizes (sizes.getD t 0) = some t := by
  cases hf : sizesFound sizes (sizes.getD t 0) with
  | none =>
    have hmem : sizes.getD t 0 ∈ sizes := by
      rw [List.getD_eq_getElem _ _ ht]
      exact List.getElem_mem ht
    have := sizesFound_none hf _ hmem
    omega
  | some i =>
    obtain ⟨hilen, hle, hfirst⟩ := sizesFound_some hf
    have hit : i ≤ t := by
      by_contra hgt
      push_neg at hgt
      have := hfirst t hgt
      omega
    rcases Nat.lt_or_ge i t with hlt | hge
    · have hstrict := List.pairwise_iff_getElem.mp hGS.2.1 i t hilen ht hlt
      rw [List.getD_eq_getElem _ _ hilen, List.getD_eq_getElem _ _ ht] at hle
      omega
    · have : i = t := by omega
      rw [this]

theorem rehash_bucketCount_eq (sizes : List Nat) (hs : HashSet) (n : Nat) :
    (hs.rehash sizes n).bucketCount = newBucketCount sizes n := by
  simp [HashSet.rehash, HashSet.bucketCount]

theorem rehash_cpi_some {sizes : List Nat} {n i : Nat} (hs : HashSet)
    (hf : sizesFound sizes n = some i) :
    (hs.rehash sizes n).currentPrimeIndex = i := by
  simp [HashSet.rehash, hf]

theorem rehash_cpi_none {sizes : List Nat} {n : Nat} (hs : HashSet)
    (hf : sizesFound sizes n = none) :
    (hs.rehash sizes n).currentPrimeIndex = hs.currentPrimeIndex := by
  simp [HashSet.rehash, hf]

theorem newBucketCount_some {sizes : List Nat} {n i : Nat}
    (hf : sizesFound sizes n = some i) : newBucketCount sizes n = sizes.getD i 0 := by
  rw [newBucketCount, hf]

theorem newBucketCount_none {sizes : List Nat} {n : Nat}
    (hf : sizesFound sizes n = none) : newBucketCount sizes n = sizes.getLastD 0 := by
  rw [newBucketCount, hf]

/-! ### The insertion position -/

theorem firstSome_eq_none {os : List (Option Nat)} (h : ∀ o ∈ os, o = none) :
    firstSome os = none := by
  induction os with
  | nil => rfl
  | cons o t ih =>
    have ho := h o (List.mem_cons_self _ _)
    subst ho
    show firstSome t = none
    exact ih fun o ho => h o (List.mem_cons_of_mem _ ho)

theorem firstSome_map_first {ns : List Nat} {g : Nat → Option Nat} {j v : Nat}
    (hsorted : ns.Pairwise (· < ·)) (hj : j ∈ ns)
    (hnone : ∀ x ∈ ns, x < j → g x = none) (hgj : g j = some v) :
    firstSome (ns.map g) = some v := by
  induction ns with
  | nil => cases hj
  | cons a t ih =>
    rw [List.map_cons]
    by_cases ha : a = j
    · subst ha
      rw [hgj]
      rfl
    · have hat : j ∈ t := by
        cases List.mem_cons.mp hj with
        | inl h => exact absurd h.symm ha
        | inr h => exact h
      have halt : a < j := (List.pairwise_cons.mp hsorted).1 j hat
      rw [hnone a (List.mem_cons_self _ _) halt]
      show firstSome (t.map g) = some v
      exact ih (List.pairwise_cons.mp hsorted).2 hat
        fun x hx hxj => hnone x (List.mem_cons_of_mem _ hx) hxj

theorem drop_range (n m : Nat) : (List.range n).drop m = List.range' m (n - m) := by
  apply List.ext_getElem?
  intro k
  rw [List.getElem?_drop]
  by_cases hk : k < n - m
  · rw [List.getElem?_range (by omega), List.getElem?_range' m 1 hk]
    simp
  · rw [List.getElem?_eq_none (by simp; omega), List.getElem?_eq_none (by simp; omega)]

/-- The bucket-table slot of any bucket `b` in a well-formed state. -/
theorem slot_eq {sizes : List Nat} {hs : HashSet} (hWF : WF sizes hs) {b : Nat}
    (hb : b < hs.buckets.length) :
    hs.buckets.getD b none =
      if keysEq hs.buckets.length b hs.allKeys = [] then none
      else some (keysLt hs.buckets.length b hs.allKeys).length := by
  obtain ⟨_, _, _, _, _, hsort, hbk⟩ := hWF
  conv_lhs => rw [hbk]
  rw [bucketsOf_getD hs.allKeys hb]
  exact findIdx?_bucket _ _ _ hsort

theorem insertPos_eq {sizes : List Nat} {hs : HashSet} (hWF : WF sizes hs) {b : Nat}
    (hb : b < hs.buckets.length) :
    hs.insertPos b =
      (keysLt hs.buckets.length b hs.allKeys).length +
        (keysEq hs.buckets.length b hs.allKeys).length := by
  have hkeysmem : ∀ k ∈ hs.allKeys, bucketIdx hs.buckets.length k < hs.buckets.length :=
    fun k _ => bucketIdx_lt _ k hWF.1
  have hslot := slot_eq hWF hb
  have hsort := hWF.2.2.2.2.2.1
  have hbk := hWF.2.2.2.2.2.2
  rw [HashSet.insertPos, hslot]
  by_cases hE : keysEq hs.buckets.length b hs.allKeys = []
  · rw [if_pos hE]
    show (firstSome (hs.buckets.drop (b + 1))).getD hs.allKeys.length = _
    rw [hE, List.length_nil, Nat.add_zero]
    have hdecomp := bsorted_decomp hs.buckets.length b hs.allKeys hsort
    rw [hE, List.nil_append] at hdecomp
    have hbkdrop : hs.buckets.drop (b + 1) =
        (List.range' (b + 1) (hs.buckets.length - (b + 1))).map
          (fun b2 => hs.allKeys.findIdx? fun k => bucketIdx hs.buckets.length k = b2) := by
      conv_lhs => rw [hbk]
      rw [bucketsOf, ← List.map_drop, drop_range]
    cases hC : keysGt hs.buckets.length b hs.allKeys with
    | nil =>
      rw [hC, List.append_nil] at hdecomp
      have hall : firstSome (hs.buckets.drop (b + 1)) = none := by
        rw [hbkdrop]
        apply firstSome_eq_none
        intro o ho
        obtain ⟨b2, hb2, rfl⟩ := List.mem_map.mp ho
        have hb2range := List.mem_range'_1.mp hb2
        rw [List.findIdx?_eq_none_iff]
        intro x hx
        have hxlt : bucketIdx hs.buckets.length x < b := by
          have hx2 : x ∈ keysLt hs.buckets.length b hs.allKeys := hdecomp ▸ hx
          exact (mem_keysLt.mp hx2).2
        simp only [decide_eq_false_iff_not]
        omega
      rw [hall]
      have hlen2 : hs.allKeys.length = (keysLt hs.buckets.length b hs.allKeys).length := by
        conv_lhs => rw [hdecomp]
      rw [Option.getD_none, hlen2]
      omega
    | cons c0 C' =>
      have hc0mem : c0 ∈ keysGt hs.buckets.length b hs.allKeys := by
        rw [hC]; exact List.mem_cons_self _ _
      have hc0l : c0 ∈ hs.allKeys := (mem_keysGt.mp hc0mem).1
      have hc0gt : b < bucketIdx hs.buckets.length c0 := (mem_keysGt.mp hc0mem).2
      have hc0lt : bucketIdx hs.buckets.length c0 < hs.buckets.length := hkeysmem c0 hc0l
      have hCsort : BSorted hs.buckets.length (keysGt hs.buckets.length b hs.allKeys) :=
        BSorted.sublist (List.filter_sublist _) hsort
      have hCmin : ∀ c ∈ keysGt hs.buckets.length b hs.allKeys,
          bucketIdx hs.buckets.length c0 ≤ bucketIdx hs.buckets.length c := by
        intro c hc
        rw [hC] at hc
        cases List.mem_cons.mp hc with
        | inl h => subst h; exact Nat.le_refl _
        | inr h =>
          rw [hC] at hCsort
          exact (List.pairwise_cons.mp hCsort).1 c h
      have hfs : firstSome (hs.buckets.drop (b + 1)) =
          some (keysLt hs.buckets.length b hs.allKeys).length := by
        rw [hbkdrop]
        apply firstSome_map_first (j := bucketIdx hs.buckets.length c0)
        · exact List.pairwise_lt_range' _ _ 1
        · rw [List.mem_range'_1]
          omega
        · intro x hx hxj
          have hxb := (List.mem_range'_1.mp hx).1
          rw [List.findIdx?_eq_none_iff]
          intro y hy
          simp only [decide_eq_false_iff_not]
          rw [hdecomp] at hy
          cases List.mem_append.mp hy with
          | inl h =>
            have := (mem_keysLt.mp h).2
            omega
          | inr h =>
            have := hCmin y h
            omega
        · have hnoneLt : ((keysLt hs.buckets.length b hs.allKeys).findIdx?
              fun k => bucketIdx hs.buckets.length k = bucketIdx hs.buckets.length c0) =
              none := by
            rw [List.findIdx?_eq_none_iff]
            intro y hy
            have := (mem_keysLt.mp hy).2
            simp only [decide_eq_false_iff_not]
            omega
          conv_lhs => rw [hdecomp, hC]
          rw [List.findIdx?_append, hnoneLt, List.findIdx?_cons]
          simp
      rw [hfs]
      rfl
  · rw [if_neg hE]
    show runEndPos hs.buckets.length b (keysLt hs.buckets.length b hs.allKeys).length
        (hs.allKeys.drop (keysLt hs.buckets.length b hs.allKeys).length) = _
    rw [runEndPos_eq, drop_keysLt hsort, takeWhile_keysEq]

/-! ### Effect of splicing a new key at the end of its bucket run -/

theorem insertIdx_boundary (l1 l2 : List Int) (x : Int) :
    List.insertIdx l1.length x (l1 ++ l2) = l1 ++ x :: l2 := by
  induction l1 with
  | nil => rfl
  | cons a t ih => simp [List.insertIdx_succ_cons, ih]

theorem keysEq_keysLt (bc b : Nat) (l : List Int) :
    keysEq bc b (keysLt bc b l) = [] := by
  apply List.filter_eq_nil_iff.mpr
  intro x hx
  have h2 := (mem_keysLt.mp hx).2
  simp only [Bool.not_eq_true, decide_eq_false_iff_not]
  omega

theorem keysEq_keysGt (bc b : Nat) (l : List Int) :
    keysEq bc b (keysGt bc b l) = [] := by
  apply List.filter_eq_nil_iff.mpr
  intro x hx
  have h2 := (mem_keysGt.mp hx).2
  simp only [Bool.not_eq_true, decide_eq_false_iff_not]
  omega

theorem keysEq_self (bc b : Nat) (l : List Int) :
    keysEq bc b (keysEq bc b l) = keysEq bc b l := by
  apply List.filter_eq_self.mpr
  intro x hx
  simp [(mem_keysEq.mp hx).2]

theorem keysEq_insert_self (bc b : Nat) (l : List Int) (key : Int)
    (hbkey : bucketIdx bc key = b) :
    keysEq bc b ((keysLt bc b l ++ keysEq bc b l) ++ key :: keysGt bc b l) =
      keysEq bc b l ++ [key] := by
  rw [keysEq, List.filter_append, List.filter_append, List.filter_cons,
    if_pos (decide_eq_true hbkey)]
  rw [← keysEq, ← keysEq, ← keysEq, keysEq_keysLt, keysEq_self, keysEq_keysGt]
  simp

theorem keysEq_insert_ne (bc b b' : Nat) (l : List Int) (key : Int)
    (hsort : BSorted bc l) (hbkey : bucketIdx bc key = b) (hne : b' ≠ b) :
    keysEq bc b' ((keysLt bc b l ++ keysEq bc b l) ++ key :: keysGt bc b l) =
      keysEq bc b' l := by
  have hkey : (bucketIdx bc key = b') = False := by
    simp only [eq_iff_iff, iff_false]
    omega
  rw [keysEq, List.filter_append, List.filter_append, List.filter_cons]
  rw [if_neg (by simp [hkey])]
  conv_rhs => rw [bsorted_decomp bc b l hsort]
  simp only [keysEq, keysLt, keysGt, List.filter_append, List.append_assoc]

theorem keysLt_keysEq_nil {bc b b' : Nat} (l : List Int) (hle : b' ≤ b) :
    keysLt bc b' (keysEq bc b l) = [] := by
  apply List.filter_eq_nil_iff.mpr
  intro x hx
  have h2 := (mem_keysEq.mp hx).2
  simp only [Bool.not_eq_true, decide_eq_false_iff_not]
  omega

theorem keysLt_keysGt_nil {bc b b' : Nat} (l : List Int) (hle : b' ≤ b) :
    keysLt bc b' (keysGt bc b l) = [] := by
  apply List.filter_eq_nil_iff.mpr
  intro x hx
  have h2 := (mem_keysGt.mp hx).2
  simp only [Bool.not_eq_true, decide_eq_false_iff_not]
  omega

theorem keysLt_keysLt_self {bc b b' : Nat} (l : List Int) (hgt : b ≤ b') :
    keysLt bc b' (keysLt bc b l) = keysLt bc b l := by
  apply List.filter_eq_self.mpr
  intro x hx
  have h2 := (mem_keysLt.mp hx).2
  simp only [decide_eq_true_eq]
  omega

theorem keysLt_keysEq_self {bc b b' : Nat} (l : List Int) (hgt : b < b') :
    keysLt bc b' (keysEq bc b l) = keysEq bc b l := by
  apply List.filter_eq_self.mpr
  intro x hx
  have h2 := (mem_keysEq.mp hx).2
  simp only [decide_eq_true_eq]
  omega

theorem keysLt_append (bc b : Nat) (X Y : List Int) :
    keysLt bc b (X ++ Y) = keysLt bc b X ++ keysLt bc b Y := by
  simp [keysLt, List.filter_append]

theorem keysEq_append (bc b : Nat) (X Y : List Int) :
    keysEq bc b (X ++ Y) = keysEq bc b X ++ keysEq bc b Y := by
  simp [keysEq, List.filter_append]

theorem keysLt_cons_of_ge {bc b : Nat} {x : Int} (Y : List Int)
    (h : b ≤ bucketIdx bc x) : keysLt bc b (x :: Y) = keysLt bc b Y := by
  have hx : ¬ ((fun k => decide (bucketIdx bc k < b)) x = true) := by
    simp only [Bool.not_eq_true, decide_eq_false_iff_not]
    omega
  rw [keysLt, keysLt, List.filter_cons, if_neg hx]

theorem keysLt_cons_of_lt {bc b : Nat} {x : Int} (Y : List Int)
    (h : bucketIdx bc x < b) : keysLt bc b (x :: Y) = x :: keysLt bc b Y := by
  have hx : (fun k => decide (bucketIdx bc k < b)) x = true := by
    simp only [decide_eq_true_eq]
    exact h
  rw [keysLt, keysLt, List.filter_cons, if_pos hx]

theorem keysLt_insert_le (bc b b' : Nat) (l : List Int) (key : Int)
    (hsort : BSorted bc l) (hbkey : bucketIdx bc key = b) (hle : b' ≤ b) :
    keysLt bc b' ((keysLt bc b l ++ keysEq bc b l) ++ key :: keysGt bc b l) =
      keysLt bc b' l := by
  rw [keysLt_append, keysLt_append, keysLt_cons_of_ge _ (by omega),
    keysLt_keysEq_nil l hle, keysLt_keysGt_nil l hle, List.append_nil, List.append_nil]
  conv_rhs => rw [bsorted_decomp bc b l hsort]
  rw [keysLt_append, keysLt_append, keysLt_keysEq_nil l hle, keysLt_keysGt_nil l hle,
    List.append_nil, List.append_nil]

theorem length_keysLt_insert_gt (bc b b' : Nat) (l : List Int) (key : Int)
    (hsort : BSorted bc l) (hbkey : bucketIdx bc key = b) (hgt : b < b') :
    (keysLt bc b' ((keysLt bc b l ++ keysEq bc b l) ++ key :: keysGt bc b l)).length =
      (keysLt bc b' l).length + 1 := by
  rw [keysLt_append, keysLt_append, keysLt_cons_of_lt _ (by omega),
    keysLt_keysLt_self l (Nat.le_of_lt hgt), keysLt_keysEq_self l hgt]
  conv_rhs => rw [bsorted_decomp bc b l hsort]
  rw [keysLt_append, keysLt_append, keysLt_keysLt_self l (Nat.le_of_lt hgt),
    keysLt_keysEq_self l hgt]
  simp only [List.length_append, List.length_cons]
  omega

theorem bsorted_insert (bc b : Nat) (l : List Int) (key : Int)
    (hsort : BSorted bc l) (hbkey : bucketIdx bc key = b) :
    BSorted bc ((keysLt bc b l ++ keysEq bc b l) ++ key :: keysGt bc b l) := by
  rw [BSorted, List.pairwise_append]
  refine ⟨?_, ?_, ?_⟩
  · have hsub : (keysLt bc b l ++ keysEq bc b l).Sublist l := by
      conv_rhs => rw [bsorted_decomp bc b l hsort, ← List.append_assoc]
      exact List.sublist_append_left _ _
    exact List.Pairwise.sublist hsub hsort
  · rw [List.pairwise_cons]
    refine ⟨?_, ?_⟩
    · intro y hy
      have h2 := (mem_keysGt.mp hy).2
      omega
    · exact List.Pairwise.sublist (List.filter_sublist _) hsort
  · intro x hx y hy
    have hxle : bucketIdx bc x ≤ b := by
      cases List.mem_append.mp hx with
      | inl h => have := (mem_keysLt.mp h).2; omega
      | inr h => have := (mem_keysEq.mp h).2; omega
    have hyge : b ≤ bucketIdx bc y := by
      cases List.mem_cons.mp hy with
      | inl h => subst h; omega
      | inr h => have := (mem_keysGt.mp h).2; omega
    omega

theorem insert_perm (bc b : Nat) (l : List Int) (key : Int) (hsort : BSorted bc l) :
    ((keysLt bc b l ++ keysEq bc b l) ++ key :: keysGt bc b l).Perm (key :: l) := by
  refine List.perm_middle.trans ?_
  have : (keysLt bc b l ++ keysEq bc b l) ++ keysGt bc b l = l := by
    rw [List.append_assoc]
    exact (bsorted_decomp bc b l hsort).symm
  rw [this]

theorem shiftUp_length (pos : Nat) (bs : List (Option Nat)) :
    (shiftUp pos bs).length = bs.length := by
  simp [shiftUp]

theorem shiftUp_getD (pos : Nat) (bs : List (Option Nat)) {b : Nat} (hb : b < bs.length) :
    (shiftUp pos bs).getD b none =
      Option.map (fun q => if pos ≤ q then q + 1 else q) (bs.getD b none) := by
  rw [shiftUp, List.getD_eq_getElem?_getD, List.getElem?_map, List.getD_eq_getElem?_getD,
    List.getElem?_eq_getElem hb]
  rfl

theorem shiftUp_getElem? (pos : Nat) (bs : List (Option Nat)) (b : Nat) :
    (shiftUp pos bs)[b]? =
      Option.map (Option.map fun q => if pos ≤ q then q + 1 else q) bs[b]? := by
  rw [shiftUp, List.getElem?_map]

theorem headNeedsUpdate_none (pos : Nat) : headNeedsUpdate pos none = true := rfl

theorem headNeedsUpdate_some (pos q : Nat) :
    headNeedsUpdate pos (some q) = decide (pos < q) := rfl

theorem keysLt_keysLt_absorb {bc b j : Nat} (l : List Int) (hjb : j ≤ b) :
    keysLt bc j (keysLt bc b l) = keysLt bc j l := by
  rw [keysLt, keysLt, keysLt, List.filter_filter]
  apply List.filter_congr
  intro x _
  by_cases h : bucketIdx bc x < j
  · have h2 : bucketIdx bc x < b := by omega
    simp [h, h2]
  · simp [h]

theorem length_keysLt_lt_of_keysEq_ne {bc b j : Nat} {l : List Int} (hjb : j < b)
    (hEj : keysEq bc j l ≠ []) :
    (keysLt bc j l).length < (keysLt bc b l).length := by
  obtain ⟨x, hx⟩ := List.exists_mem_of_ne_nil _ hEj
  have hxl : x ∈ l := (mem_keysEq.mp hx).1
  have hxj : bucketIdx bc x = j := (mem_keysEq.mp hx).2
  have hxA : x ∈ keysLt bc b l := mem_keysLt.mpr ⟨hxl, by omega⟩
  have habs : keysLt bc j (keysLt bc b l) = keysLt bc j l :=
    keysLt_keysLt_absorb l (Nat.le_of_lt hjb)
  have hsub : (keysLt bc j (keysLt bc b l)).Sublist (keysLt bc b l) :=
    List.filter_sublist _
  have hle : (keysLt bc j l).length ≤ (keysLt bc b l).length := by
    rw [← habs]
    exact hsub.length_le
  rcases Nat.lt_or_ge (keysLt bc j l).length (keysLt bc b l).length with h | h
  · exact h
  · exfalso
    have heq : (keysLt bc j l).length = (keysLt bc b l).length := by omega
    have : keysLt bc j (keysLt bc b l) = keysLt bc b l :=
      hsub.eq_of_length (by rw [habs, heq])
    have hxin : x ∈ keysLt bc j (keysLt bc b l) := by rw [this]; exact hxA
    have := (mem_keysLt.mp hxin).2
    omega

theorem length_keysLt_ge {bc b j : Nat} {l : List Int} (hsort : BSorted bc l)
    (hbj : b < j) :
    (keysLt bc b l).length + (keysEq bc b l).length ≤ (keysLt bc j l).length := by
  conv_rhs => rw [bsorted_decomp bc b l hsort]
  rw [keysLt_append, keysLt_append, keysLt_keysLt_self l (Nat.le_of_lt hbj),
    keysLt_keysEq_self l hbj]
  simp only [List.length_append]
  omega

theorem findIdx?_insert_self {sizes : List Nat} {hs : HashSet} (key : Int)
    (hWF : WF sizes hs) :
    (((keysLt hs.buckets.length (hs.bucket key) hs.allKeys ++
        keysEq hs.buckets.length (hs.bucket key) hs.allKeys) ++
        key :: keysGt hs.buckets.length (hs.bucket key) hs.allKeys).findIdx?
      fun k => bucketIdx hs.buckets.length k = hs.bucket key) =
      some (keysLt hs.buckets.length (hs.bucket key) hs.allKeys).length := by
  have hsort := hWF.2.2.2.2.2.1
  have hbkey : bucketIdx hs.buckets.length key = hs.bucket key := rfl
  rw [findIdx?_bucket _ _ _ (bsorted_insert _ _ _ _ hsort hbkey),
    keysEq_insert_self _ _ _ _ hbkey,
    keysLt_insert_le _ _ _ _ _ hsort hbkey (Nat.le_refl _)]
  rw [if_neg (by simp)]

theorem findIdx?_insert_ne {sizes : List Nat} {hs : HashSet} (key : Int)
    (hWF : WF sizes hs) {j : Nat} (hne : j ≠ hs.bucket key) :
    (((keysLt hs.buckets.length (hs.bucket key) hs.allKeys ++
        keysEq hs.buckets.length (hs.bucket key) hs.allKeys) ++
        key :: keysGt hs.buckets.length (hs.bucket key) hs.allKeys).findIdx?
      fun k => bucketIdx hs.buckets.length k = j) =
      Option.map
        (fun q => if (keysLt hs.buckets.length (hs.bucket key) hs.allKeys).length +
            (keysEq hs.buckets.length (hs.bucket key) hs.allKeys).length ≤ q
          then q + 1 else q)
        (hs.allKeys.findIdx? fun k => bucketIdx hs.buckets.length k = j) := by
  have hsort := hWF.2.2.2.2.2.1
  have hbkey : bucketIdx hs.buckets.length key = hs.bucket key := rfl
  rw [findIdx?_bucket _ _ _ (bsorted_insert _ _ _ _ hsort hbkey),
    findIdx?_bucket _ _ _ hsort,
    keysEq_insert_ne _ _ _ _ _ hsort hbkey hne]
  by_cases hEj : keysEq hs.buckets.length j hs.allKeys = []
  · rw [if_pos hEj, if_pos hEj]
    rfl
  · rw [if_neg hEj, if_neg hEj]
    rcases Nat.lt_or_ge j (hs.bucket key) with hjb | hjb
    · rw [keysLt_insert_le _ _ _ _ _ hsort hbkey (Nat.le_of_lt hjb)]
      have hlt := length_keysLt_lt_of_keysEq_ne hjb hEj
      rw [Option.map_some']
      congr 1
      rw [if_neg (by omega)]
    · have hjb2 : hs.bucket key < j := by omega
      rw [length_keysLt_insert_gt _ _ _ _ _ hsort hbkey hjb2]
      have hge := length_keysLt_ge hsort hjb2
      rw [Option.map_some']
      congr 1
      rw [if_pos (by omega)]

theorem insertNoGrow_buckets {sizes : List Nat} {hs : HashSet} (key : Int)
    (hWF : WF sizes hs) :
    (hs.insertNoGrow key).buckets =
      bucketsOf hs.buckets.length
        ((keysLt hs.buckets.length (hs.bucket key) hs.allKeys ++
          keysEq hs.buckets.length (hs.bucket key) hs.allKeys) ++
          key :: keysGt hs.buckets.length (hs.bucket key) hs.allKeys) := by
  have hpos0 : 0 < hs.buckets.length := hWF.1
  have hsort := hWF.2.2.2.2.2.1
  have hbk := hWF.2.2.2.2.2.2
  have hblt : hs.bucket key < hs.buckets.length := bucketIdx_lt _ key hpos0
  have hposeq := insertPos_eq hWF hblt
  have hslot := slot_eq hWF hblt
  have hbj : ∀ j, j < hs.buckets.length →
      hs.buckets[j]? = some (hs.allKeys.findIdx? fun k => bucketIdx hs.buckets.length k = j) := by
    intro j hj
    conv_lhs => rw [hbk]
    exact bucketsOf_getElem? _ hj
  simp only [HashSet.insertNoGrow]
  rw [hposeq, shiftUp_getD _ _ hblt, hslot]
  by_cases hE : keysEq hs.buckets.length (hs.bucket key) hs.allKeys = []
  · rw [if_pos hE, Option.map_none', headNeedsUpdate_none, if_pos rfl]
    apply List.ext_getElem?
    intro j
    by_cases hj : j < hs.buckets.length
    · rcases eq_or_ne j (hs.bucket key) with hjb | hjb
      · subst hjb
        rw [List.getElem?_set_self (by rw [shiftUp_length]; exact hj)]
        rw [bucketsOf_getElem? _ hj, findIdx?_insert_self key hWF]
        rw [hE, List.length_nil, Nat.add_zero]
      · rw [List.getElem?_set_ne (fun h => hjb h.symm), shiftUp_getElem?, hbj j hj]
        rw [bucketsOf_getElem? _ hj, findIdx?_insert_ne key hWF hjb]
        rfl
    · rw [List.getElem?_eq_none, List.getElem?_eq_none]
      · rw [length_bucketsOf]
        omega
      · rw [List.length_set, shiftUp_length]
        omega
  · rw [if_neg hE]
    have hRpos : 0 < (keysEq hs.buckets.length (hs.bucket key) hs.allKeys).length :=
      List.length_pos.mpr hE
    have hheadslot : Option.map
        (fun q => if (keysLt hs.buckets.length (hs.bucket key) hs.allKeys).length +
            (keysEq hs.buckets.length (hs.bucket key) hs.allKeys).length ≤ q
          then q + 1 else q)
        (some (keysLt hs.buckets.length (hs.bucket key) hs.allKeys).length) =
        some (keysLt hs.buckets.length (hs.bucket key) hs.allKeys).length := by
      rw [Option.map_some']
      congr 1
      rw [if_neg (by omega)]
    rw [hheadslot, headNeedsUpdate_some,
      if_neg (by simp only [decide_eq_true_eq]; omega)]
    apply List.ext_getElem?
    intro j
    by_cases hj : j < hs.buckets.length
    · rcases eq_or_ne j (hs.bucket key) with hjb | hjb
      · subst hjb
        rw [shiftUp_getElem?, hbj _ hj, bucketsOf_getElem? _ hj, findIdx?_insert_self key hWF]
        rw [findIdx?_bucket _ _ _ hsort, if_neg hE]
        rw [Option.map_some', Option.map_some']
        congr 2
        rw [if_neg (by omega)]
      · rw [shiftUp_getElem?, hbj j hj]
        rw [bucketsOf_getElem? _ hj, findIdx?_insert_ne key hWF hjb]
        rfl
    · rw [List.getElem?_eq_none, List.getElem?_eq_none]
      · rw [length_bucketsOf]
        omega
      · rw [shiftUp_length]
        omega

theorem insertNoGrow_spec {sizes : List Nat} {hs : HashSet} {key : Int}
    (hWF : WF sizes hs) (hnot : key ∉ hs.allKeys) :
    WF sizes (hs.insertNoGrow key) ∧
      (hs.insertNoGrow key).allKeys.Perm (key :: hs.allKeys) ∧
      (hs.insertNoGrow key).countElements = hs.countElements + 1 ∧
      (hs.insertNoGrow key).buckets.length = hs.buckets.length ∧
      (hs.insertNoGrow key).maxLFactor = hs.maxLFactor ∧
      (hs.insertNoGrow key).currentPrimeIndex = hs.currentPrimeIndex := by
  have hpos0 : 0 < hs.buckets.length := hWF.1
  have hmem := hWF.2.1
  have hcpi := hWF.2.2.1
  have hcount := hWF.2.2.2.1
  have hnodup := hWF.2.2.2.2.1
  have hsort := hWF.2.2.2.2.2.1
  have hblt : hs.bucket key < hs.buckets.length := bucketIdx_lt _ key hpos0
  have hbkey : bucketIdx hs.buckets.length key = hs.bucket key := rfl
  have hdecomp2 : hs.allKeys =
      (keysLt hs.buckets.length (hs.bucket key) hs.allKeys ++
        keysEq hs.buckets.length (hs.bucket key) hs.allKeys) ++
        keysGt hs.buckets.length (hs.bucket key) hs.allKeys := by
    rw [List.append_assoc]
    exact bsorted_decomp _ _ _ hsort
  have hkeys : (hs.insertNoGrow key).allKeys =
      (keysLt hs.buckets.length (hs.bucket key) hs.allKeys ++
        keysEq hs.buckets.length (hs.bucket key) hs.allKeys) ++
        key :: keysGt hs.buckets.length (hs.bucket key) hs.allKeys := by
    show List.insertIdx (hs.insertPos (hs.bucket key)) key hs.allKeys = _
    rw [insertPos_eq hWF hblt, ← List.length_append]
    have hbdy := insertIdx_boundary
      (keysLt hs.buckets.length (hs.bucket key) hs.allKeys ++
        keysEq hs.buckets.length (hs.bucket key) hs.allKeys)
      (keysGt hs.buckets.length (hs.bucket key) hs.allKeys) key
    rw [← hdecomp2] at hbdy
    exact hbdy
  have hperm : (hs.insertNoGrow key).allKeys.Perm (key :: hs.allKeys) := by
    rw [hkeys]
    exact insert_perm _ _ _ _ hsort
  have hlenB : (hs.insertNoGrow key).buckets.length = hs.buckets.length := by
    simp only [HashSet.insertNoGrow]
    split
    · rw [List.length_set, shiftUp_length]
    · rw [shiftUp_length]
  have hcnt : (hs.insertNoGrow key).countElements = hs.countElements + 1 := rfl
  refine ⟨⟨?_, ?_, ?_, ?_, ?_, ?_, ?_⟩, hperm, hcnt, hlenB, rfl, rfl⟩
  · rw [hlenB]
    exact hpos0
  · rw [hlenB]
    exact hmem
  · exact hcpi
  · rw [hcnt, hperm.length_eq, List.length_cons, hcount]
  · exact hperm.nodup_iff.mpr (List.nodup_cons.mpr ⟨hnot, hnodup⟩)
  · rw [hlenB, hkeys]
    exact bsorted_insert _ _ _ _ hsort hbkey
  · rw [hlenB, hkeys]
    exact insertNoGrow_buckets key hWF

theorem insert_spec {sizes : List Nat} {hs : HashSet} {key : Int}
    (hGS : GoodSizes sizes) (hWF : WF sizes hs) (hnc : hs.contains key = false) :
    WF sizes (hs.insert sizes key) ∧
      (hs.insert sizes key).allKeys.Perm (key :: hs.allKeys) ∧
      (hs.insert sizes key).countElements = hs.countElements + 1 ∧
      (hs.insert sizes key).maxLFactor = hs.maxLFactor ∧
      ((hs.loadFactor > hs.maxLFactor ∧ hs.currentPrimeIndex + 1 < sizes.length) →
        (hs.insert sizes key).bucketCount =
          newBucketCount sizes (sizes.getD (hs.currentPrimeIndex + 1) 0) ∧
        (hs.insert sizes key).currentPrimeIndex =
          (hs.rehash sizes (sizes.getD (hs.currentPrimeIndex + 1) 0)).currentPrimeIndex) ∧
      (¬ (hs.loadFactor > hs.maxLFactor ∧ hs.currentPrimeIndex + 1 < sizes.length) →
        (hs.insert sizes key).bucketCount = hs.bucketCount ∧
        (hs.insert sizes key).currentPrimeIndex = hs.currentPrimeIndex) := by
  have hnot : key ∉ hs.allKeys := by
    intro hmem
    rw [(contains_iff_mem hWF key).mpr hmem] at hnc
    cases hnc
  have hcond : ¬ (hs.contains key = true) := by
    rw [hnc]
    exact Bool.false_ne_true
  rw [HashSet.insert, if_neg hcond]
  by_cases hg : hs.loadFactor > hs.maxLFactor ∧ hs.currentPrimeIndex + 1 < sizes.length
  · rw [if_pos hg]
    obtain ⟨hWF2, hperm2, hcnt2, hmax2, hbc2⟩ :=
      rehash_WF hGS hWF (sizes.getD (hs.currentPrimeIndex + 1) 0)
    have hnot2 : key ∉ (hs.rehash sizes (sizes.getD (hs.currentPrimeIndex + 1) 0)).allKeys :=
      fun h => hnot (hperm2.mem_iff.mp h)
    obtain ⟨hWF3, hperm3, hcnt3, hlen3, hmax3, hcpi3⟩ := insertNoGrow_spec hWF2 hnot2
    refine ⟨hWF3, hperm3.trans (hperm2.cons key), ?_, ?_, fun _ => ⟨?_, ?_⟩,
      fun hng => absurd hg hng⟩
    · rw [hcnt3, hcnt2]
    · rw [hmax3, hmax2]
    · rw [HashSet.bucketCount, hlen3]
      exact hbc2
    · exact hcpi3
  · rw [if_neg hg]
    obtain ⟨hWF3, hperm3, hcnt3, hlen3, hmax3, hcpi3⟩ := insertNoGrow_spec hWF hnot
    exact ⟨hWF3, hperm3, hcnt3, hmax3, fun h => absurd h hg,
      fun _ => ⟨by rw [HashSet.bucketCount, HashSet.bucketCount, hlen3], hcpi3⟩⟩

/-! ### Effect of unlinking a key from its bucket run -/

theorem getD_append_mid (A X : List Int) (r : Nat) :
    (A ++ X).getD (A.length + r) 0 = X.getD r 0 := by
  rw [List.getD_eq_getElem?_getD, List.getElem?_append_right (by omega),
    Nat.add_sub_cancel_left, List.getD_eq_getElem?_getD]

theorem eraseIdx_append_mid (A X : List Int) (r : Nat) :
    (A ++ X).eraseIdx (A.length + r) = A ++ X.eraseIdx r := by
  induction A with
  | nil => simp
  | cons a t ih =>
    have harith : (a :: t : List Int).length + r = (t.length + r) + 1 := by
      simp
      omega
    rw [harith, List.cons_append, List.eraseIdx_cons_succ, ih, List.cons_append]

theorem eraseIdx_append_left (R C : List Int) (r : Nat) (h : r < R.length) :
    (R ++ C).eraseIdx r = R.eraseIdx r ++ C := by
  induction R generalizing r with
  | nil => simp at h
  | cons x R' ih =>
    cases r with
    | zero => rfl
    | succ r' =>
      rw [List.cons_append, List.eraseIdx_cons_succ, List.eraseIdx_cons_succ,
        ih r' (by simp at h; omega), List.cons_append]

theorem keysEq_mid (bc b : Nat) (l M : List Int)
    (hM : ∀ x ∈ M, bucketIdx bc x = b) :
    keysEq bc b ((keysLt bc b l ++ M) ++ keysGt bc b l) = M := by
  rw [keysEq_append, keysEq_append, keysEq_keysLt, keysEq_keysGt,
    List.nil_append, List.append_nil]
  apply List.filter_eq_self.mpr
  intro x hx
  simp [hM x hx]

theorem keysEq_mid_ne (bc b j : Nat) (l M : List Int) (hsort : BSorted bc l)
    (hM : ∀ x ∈ M, bucketIdx bc x = b) (hne : j ≠ b) :
    keysEq bc j ((keysLt bc b l ++ M) ++ keysGt bc b l) = keysEq bc j l := by
  have hMnil : keysEq bc j M = [] := by
    apply List.filter_eq_nil_iff.mpr
    intro x hx
    have := hM x hx
    simp only [Bool.not_eq_true, decide_eq_false_iff_not]
    omega
  have hRnil : keysEq bc j (keysEq bc b l) = [] := by
    apply List.filter_eq_nil_iff.mpr
    intro x hx
    have := (mem_keysEq.mp hx).2
    simp only [Bool.not_eq_true, decide_eq_false_iff_not]
    omega
  rw [keysEq_append, keysEq_append, hMnil, List.append_nil]
  conv_rhs => rw [bsorted_decomp bc b l hsort]
  rw [keysEq_append, keysEq_append, hRnil, List.nil_append]

theorem keysLt_mid_le (bc b j : Nat) (l M : List Int) (hsort : BSorted bc l)
    (hM : ∀ x ∈ M, bucketIdx bc x = b) (hle : j ≤ b) :
    keysLt bc j ((keysLt bc b l ++ M) ++ keysGt bc b l) = keysLt bc j l := by
  have hMnil : keysLt bc j M = [] := by
    apply List.filter_eq_nil_iff.mpr
    intro x hx
    have := hM x hx
    simp only [Bool.not_eq_true, decide_eq_false_iff_not]
    omega
  rw [keysLt_append, keysLt_append, hMnil, List.append_nil, keysLt_keysGt_nil l hle,
    List.append_nil]
  conv_rhs => rw [bsorted_decomp bc b l hsort]
  rw [keysLt_append, keysLt_append, keysLt_keysEq_nil l hle, keysLt_keysGt_nil l hle,
    List.nil_append, List.append_nil]

theorem length_keysLt_mid_gt (bc b j : Nat) (l M : List Int) (hsort : BSorted bc l)
    (hM : ∀ x ∈ M, bucketIdx bc x = b) (hgt : b < j) :
    (keysLt bc j ((keysLt bc b l ++ M) ++ keysGt bc b l)).length =
      (keysLt bc b l).length + M.length + (keysLt bc j (keysGt bc b l)).length ∧
    (keysLt bc j l).length =
      (keysLt bc b l).length + (keysEq bc b l).length +
        (keysLt bc j (keysGt bc b l)).length := by
  have hMfull : keysLt bc j M = M := by
    apply List.filter_eq_self.mpr
    intro x hx
    have := hM x hx
    simp only [decide_eq_true_eq]
    omega
  constructor
  · rw [keysLt_append, keysLt_append, keysLt_keysLt_self l (Nat.le_of_lt hgt), hMfull]
    simp [List.length_append]
    omega
  · conv_lhs => rw [bsorted_decomp bc b l hsort]
    rw [keysLt_append, keysLt_append, keysLt_keysLt_self l (Nat.le_of_lt hgt),
      keysLt_keysEq_self l hgt]
    simp [List.length_append]
    omega

theorem length_keysLt_le {bc b j : Nat} (l : List Int) (hjb : j ≤ b) :
    (keysLt bc j l).length ≤ (keysLt bc b l).length := by
  have habs : keysLt bc j (keysLt bc b l) = keysLt bc j l :=
    keysLt_keysLt_absorb l hjb
  have hsub : (keysLt bc j (keysLt bc b l)).Sublist (keysLt bc b l) :=
    List.filter_sublist _
  rw [← habs]
  exact hsub.length_le

theorem find_some_spec {sizes : List Nat} {hs : HashSet} {key : Int} {e : Nat}
    (hWF : WF sizes hs) (hfind : hs.find key = some e) :
    ∃ r, e = (keysLt hs.buckets.length (hs.bucket key) hs.allKeys).length + r ∧
      r < (keysEq hs.buckets.length (hs.bucket key) hs.allKeys).length ∧
      (keysEq hs.buckets.length (hs.bucket key) hs.allKeys).getD r 0 = key := by
  obtain ⟨hgd, hdrop⟩ := lookup_anatomy hWF key
  rw [HashSet.find] at hfind
  by_cases hE : keysEq hs.buckets.length (hs.bucket key) hs.allKeys = []
  · rw [if_pos hE] at hgd
    rw [hgd] at hfind
    cases hfind
  · rw [if_neg hE] at hgd
    rw [hgd] at hfind
    simp only [] at hfind
    rw [findRun_eq, hdrop, takeWhile_keysEq] at hfind
    cases hri : ((keysEq hs.buckets.length (hs.bucket key) hs.allKeys).findIdx?
        fun k => k = key) with
    | none =>
      rw [hri] at hfind
      cases hfind
    | some r =>
      rw [hri, Option.map_some'] at hfind
      have he : r + (keysLt hs.buckets.length (hs.bucket key) hs.allKeys).length = e := by
        injection hfind
      obtain ⟨hlt, hp, _⟩ := List.findIdx?_eq_some_iff_getElem.mp hri
      refine ⟨r, by omega, hlt, ?_⟩
      rw [List.getD_eq_getElem?_getD, List.getElem?_eq_getElem hlt]
      simpa using hp

theorem findIdx?_erase_ne {sizes : List Nat} {hs : HashSet} (key : Int) {M : List Int}
    (hWF : WF sizes hs)
    (hM : ∀ x ∈ M, bucketIdx hs.buckets.length x = hs.bucket key)
    (hMlen : M.length + 1 = (keysEq hs.buckets.length (hs.bucket key) hs.allKeys).length)
    {j e : Nat} (hne : j ≠ hs.bucket key)
    (he_lo : (keysLt hs.buckets.length (hs.bucket key) hs.allKeys).length ≤ e)
    (he_hi : e < (keysLt hs.buckets.length (hs.bucket key) hs.allKeys).length +
      (keysEq hs.buckets.length (hs.bucket key) hs.allKeys).length) :
    (((keysLt hs.buckets.length (hs.bucket key) hs.allKeys ++ M) ++
        keysGt hs.buckets.length (hs.bucket key) hs.allKeys).findIdx?
      fun k => bucketIdx hs.buckets.length k = j) =
      Option.map (fun q => if e < q then q - 1 else q)
        (hs.allKeys.findIdx? fun k => bucketIdx hs.buckets.length k = j) := by
  have hsort := hWF.2.2.2.2.2.1
  have hMsub : ((keysLt hs.buckets.length (hs.bucket key) hs.allKeys ++ M) ++
      keysGt hs.buckets.length (hs.bucket key) hs.allKeys).Pairwise
      fun x y => bucketIdx hs.buckets.length x ≤ bucketIdx hs.buckets.length y := by
    rw [List.pairwise_append]
    refine ⟨?_, List.Pairwise.sublist (List.filter_sublist _) hsort, ?_⟩
    · rw [List.pairwise_append]
      refine ⟨List.Pairwise.sublist (List.filter_sublist _) hsort, ?_, ?_⟩
      · rw [List.pairwise_iff_getElem]
        intro a c ha hc _
        have h1 := hM _ (List.getElem_mem ha)
        have h2 := hM _ (List.getElem_mem hc)
        omega
      · intro x hx y hy
        have h1 := (mem_keysLt.mp hx).2
        have h2 := hM y hy
        omega
    · intro x hx y hy
      have h2 := (mem_keysGt.mp hy).2
      cases List.mem_append.mp hx with
      | inl h => have := (mem_keysLt.mp h).2; omega
      | inr h => have := hM x h; omega
  rw [findIdx?_bucket _ _ _ hMsub, findIdx?_bucket _ _ _ hsort,
    keysEq_mid_ne _ _ _ _ _ hsort hM hne]
  by_cases hEj : keysEq hs.buckets.length j hs.allKeys = []
  · rw [if_pos hEj, if_pos hEj]
    rfl
  · rw [if_neg hEj, if_neg hEj, Option.map_some']
    congr 1
    rcases Nat.lt_or_ge j (hs.bucket key) with hjb | hjb
    · rw [keysLt_mid_le _ _ _ _ _ hsort hM (Nat.le_of_lt hjb)]
      have hlen := @length_keysLt_le hs.buckets.length _ _ hs.allKeys (Nat.le_of_lt hjb)
      rw [if_neg (by omega)]
    · have hjb2 : hs.bucket key < j := by omega
      obtain ⟨hnew, hold⟩ := length_keysLt_mid_gt hs.buckets.length (hs.bucket key) j
        hs.allKeys M hsort hM hjb2
      rw [hnew, if_pos (by omega)]
      omega

theorem getD_append_left (R C : List Int) (r : Nat) (h : r < R.length) :
    (R ++ C).getD r 0 = R.getD r 0 := by
  rw [List.getD_eq_getElem?_getD, List.getElem?_append_left h, List.getD_eq_getElem?_getD]

theorem eraseKey_spec {sizes : List Nat} {hs : HashSet} {key : Int}
    (hWF : WF sizes hs) (hc : hs.contains key = true) :
    WF sizes (hs.eraseKey key) ∧
      hs.allKeys.Perm (key :: (hs.eraseKey key).allKeys) ∧
      (hs.eraseKey key).countElements = hs.countElements - 1 ∧
      (hs.eraseKey key).buckets.length = hs.buckets.length ∧
      (hs.eraseKey key).maxLFactor = hs.maxLFactor ∧
      (hs.eraseKey key).currentPrimeIndex = hs.currentPrimeIndex := by
  have hpos0 : 0 < hs.buckets.length := hWF.1
  have hmem := hWF.2.1
  have hcpi := hWF.2.2.1
  have hcount := hWF.2.2.2.1
  have hnodup := hWF.2.2.2.2.1
  have hsort := hWF.2.2.2.2.2.1
  have hblt : hs.bucket key < hs.buckets.length := bucketIdx_lt _ key hpos0
  have hslot := slot_eq hWF hblt
  obtain ⟨e, hf⟩ : ∃ e, hs.find key = some e := by
    cases hfx : hs.find key with
    | none =>
      rw [find_eq_none_iff] at hfx
      rw [hfx] at hc
      cases hc
    | some e => exact ⟨e, rfl⟩
  obtain ⟨r, he, hrlt, hr⟩ := find_some_spec hWF hf
  have hRne : keysEq hs.buckets.length (hs.bucket key) hs.allKeys ≠ [] := by
    intro h
    rw [h] at hrlt
    simp at hrlt
  rw [if_neg hRne] at hslot
  have hdecompA : hs.allKeys =
      keysLt hs.buckets.length (hs.bucket key) hs.allKeys ++
        (keysEq hs.buckets.length (hs.bucket key) hs.allKeys ++
          keysGt hs.buckets.length (hs.bucket key) hs.allKeys) :=
    bsorted_decomp _ _ _ hsort
  have hlenl : hs.allKeys.length =
      (keysLt hs.buckets.length (hs.bucket key) hs.allKeys).length +
        (keysEq hs.buckets.length (hs.bucket key) hs.allKeys).length +
        (keysGt hs.buckets.length (hs.bucket key) hs.allKeys).length := by
    conv_lhs => rw [hdecompA]
    simp [List.length_append]
    omega
  have hel : e < hs.allKeys.length := by omega
  have hgetD2 : hs.allKeys.getD e 0 = key := by
    rw [he]
    nth_rewrite 1 [hdecompA]
    rw [getD_append_mid, getD_append_left _ _ _ hrlt, hr]
  have hak : (hs.eraseKey key).allKeys = hs.allKeys.eraseIdx e := by
    simp [HashSet.eraseKey, hf, HashSet.eraseIter]
  have hbk2 : (hs.eraseKey key).buckets =
      (hs.eraseBucketsUpd e (hs.bucket key)).map
        (Option.map fun q => if e < q then q - 1 else q) := by
    simp only [HashSet.eraseKey, hf, HashSet.eraseIter]
    rw [hgetD2]
  have hcnt : (hs.eraseKey key).countElements = hs.countElements - 1 := by
    simp [HashSet.eraseKey, hf, HashSet.eraseIter]
  have hmaxl : (hs.eraseKey key).maxLFactor = hs.maxLFactor := by
    simp [HashSet.eraseKey, hf, HashSet.eraseIter]
  have hcpi2 : (hs.eraseKey key).currentPrimeIndex = hs.currentPrimeIndex := by
    simp [HashSet.eraseKey, hf, HashSet.eraseIter]
  have hm : (hs.eraseKey key).allKeys =
      (keysLt hs.buckets.length (hs.bucket key) hs.allKeys ++
        (keysEq hs.buckets.length (hs.bucket key) hs.allKeys).eraseIdx r) ++
        keysGt hs.buckets.length (hs.bucket key) hs.allKeys := by
    rw [hak, he]
    nth_rewrite 1 [hdecompA]
    rw [eraseIdx_append_mid, eraseIdx_append_left _ _ _ hrlt, List.append_assoc]
  have hMmem : ∀ x ∈ (keysEq hs.buckets.length (hs.bucket key) hs.allKeys).eraseIdx r,
      bucketIdx hs.buckets.length x = hs.bucket key := by
    intro x hx
    exact (mem_keysEq.mp ((List.eraseIdx_sublist _ r).mem hx)).2
  have hMlen : ((keysEq hs.buckets.length (hs.bucket key) hs.allKeys).eraseIdx r).length + 1 =
      (keysEq hs.buckets.length (hs.bucket key) hs.allKeys).length := by
    rw [List.length_eraseIdx_of_lt hrlt]
    omega
  have hRr : (keysEq hs.buckets.length (hs.bucket key) hs.allKeys)[r] = key := by
    rw [List.getD_eq_getElem?_getD, List.getElem?_eq_getElem hrlt] at hr
    simpa using hr
  have hRsplit : keysEq hs.buckets.length (hs.bucket key) hs.allKeys =
      (keysEq hs.buckets.length (hs.bucket key) hs.allKeys).take r ++
        key :: (keysEq hs.buckets.length (hs.bucket key) hs.allKeys).drop (r + 1) := by
    conv_lhs => rw [← List.take_append_drop r
      (keysEq hs.buckets.length (hs.bucket key) hs.allKeys)]
    rw [List.drop_eq_getElem_cons hrlt, hRr]
  have hM2 : (keysEq hs.buckets.length (hs.bucket key) hs.allKeys).eraseIdx r =
      (keysEq hs.buckets.length (hs.bucket key) hs.allKeys).take r ++
        (keysEq hs.buckets.length (hs.bucket key) hs.allKeys).drop (r + 1) :=
    List.eraseIdx_eq_take_drop_succ _ _
  have hperm : hs.allKeys.Perm (key :: (hs.eraseKey key).allKeys) := by
    have h1 : hs.allKeys =
        (keysLt hs.buckets.length (hs.bucket key) hs.allKeys ++
          (keysEq hs.buckets.length (hs.bucket key) hs.allKeys).take r) ++
          key :: ((keysEq hs.buckets.length (hs.bucket key) hs.allKeys).drop (r + 1) ++
            keysGt hs.buckets.length (hs.bucket key) hs.allKeys) := by
      conv_lhs => rw [hdecompA]
      nth_rewrite 1 [hRsplit]
      simp [List.append_assoc, List.cons_append]
    have h2 : key :: ((keysLt hs.buckets.length (hs.bucket key) hs.allKeys ++
        (keysEq hs.buckets.length (hs.bucket key) hs.allKeys).take r) ++
        ((keysEq hs.buckets.length (hs.bucket key) hs.allKeys).drop (r + 1) ++
          keysGt hs.buckets.length (hs.bucket key) hs.allKeys)) =
        key :: (hs.eraseKey key).allKeys := by
      rw [hm, hM2]
      simp [List.append_assoc]
    nth_rewrite 1 [h1]
    rw [← h2]
    exact List.perm_middle
  have hsub : (hs.eraseKey key).allKeys.Sublist hs.allKeys := by
    rw [hak]
    exact List.eraseIdx_sublist _ _
  have hlenupd : (hs.eraseBucketsUpd e (hs.bucket key)).length = hs.buckets.length := by
    rw [HashSet.eraseBucketsUpd]
    split
    · split <;> rw [List.length_set]
    · rfl
  have hlenB : (hs.eraseKey key).buckets.length = hs.buckets.length := by
    rw [hbk2, List.length_map, hlenupd]
  have hupd_ne : ∀ j, j ≠ hs.bucket key →
      (hs.eraseBucketsUpd e (hs.bucket key))[j]? = hs.buckets[j]? := by
    intro j hj
    rw [HashSet.eraseBucketsUpd]
    split
    · split <;> rw [List.getElem?_set_ne (fun h => hj h.symm)]
    · rfl
  have hbjq : ∀ j, j < hs.buckets.length →
      hs.buckets[j]? = some (hs.allKeys.findIdx? fun k => bucketIdx hs.buckets.length k = j) := by
    intro j hj
    conv_lhs => rw [hWF.2.2.2.2.2.2]
    exact bucketsOf_getElem? _ hj
  have hsortm : ((keysLt hs.buckets.length (hs.bucket key) hs.allKeys ++
      (keysEq hs.buckets.length (hs.bucket key) hs.allKeys).eraseIdx r) ++
      keysGt hs.buckets.length (hs.bucket key) hs.allKeys).Pairwise
      (fun x y => bucketIdx hs.buckets.length x ≤ bucketIdx hs.buckets.length y) := by
    have : ((keysLt hs.buckets.length (hs.bucket key) hs.allKeys ++
        (keysEq hs.buckets.length (hs.bucket key) hs.allKeys).eraseIdx r) ++
        keysGt hs.buckets.length (hs.bucket key) hs.allKeys).Sublist hs.allKeys := by
      have h1 : (keysLt hs.buckets.length (hs.bucket key) hs.allKeys ++
          (keysEq hs.buckets.length (hs.bucket key) hs.allKeys).eraseIdx r).Sublist
          (keysLt hs.buckets.length (hs.bucket key) hs.allKeys ++
            keysEq hs.buckets.length (hs.bucket key) hs.allKeys) :=
        (List.eraseIdx_sublist _ r).append_left _
      have h2 := h1.append_right (keysGt hs.buckets.length (hs.bucket key) hs.allKeys)
      have h3 : (keysLt hs.buckets.length (hs.bucket key) hs.allKeys ++
          keysEq hs.buckets.length (hs.bucket key) hs.allKeys) ++
          keysGt hs.buckets.length (hs.bucket key) hs.allKeys = hs.allKeys := by
        rw [List.append_assoc]
        exact hdecompA.symm
      rw [h3] at h2
      exact h2
    exact List.Pairwise.sublist this hsort
  have hbuckets : (hs.eraseKey key).buckets =
      bucketsOf hs.buckets.length ((hs.eraseKey key).allKeys) := by
    rw [hbk2, hm]
    apply List.ext_getElem?
    intro j
    by_cases hj : j < hs.buckets.length
    · rcases eq_or_ne j (hs.bucket key) with hjb | hjb
      · subst hjb
        rw [List.getElem?_map, bucketsOf_getElem? _ hj, findIdx?_bucket _ _ _ hsortm,
          keysEq_mid _ _ _ _ hMmem, keysLt_mid_le _ _ _ _ _ hsort hMmem (Nat.le_refl _)]
        rw [HashSet.eraseBucketsUpd, hslot]
        by_cases hr0 : r = 0
        · subst hr0
          rw [if_pos (by rw [he]; rfl)]
          by_cases hR2 : 1 < (keysEq hs.buckets.length (hs.bucket key) hs.allKeys).length
          · have hcond2 : e + 1 < hs.allKeys.length ∧
                bucketIdx hs.buckets.length (hs.allKeys.getD (e + 1) 0) = hs.bucket key := by
              constructor
              · omega
              · have hgd1 : hs.allKeys.getD (e + 1) 0 =
                    (keysEq hs.buckets.length (hs.bucket key) hs.allKeys).getD 1 0 := by
                  rw [he]
                  nth_rewrite 1 [hdecompA]
                  have harith : (keysLt hs.buckets.length (hs.bucket key)
                      hs.allKeys).length + 0 + 1 =
                      (keysLt hs.buckets.length (hs.bucket key) hs.allKeys).length + 1 := by
                    omega
                  rw [harith, getD_append_mid, getD_append_left _ _ _ hR2]
                rw [hgd1]
                have h1mem : (keysEq hs.buckets.length (hs.bucket key) hs.allKeys).getD 1 0 ∈
                    keysEq hs.buckets.length (hs.bucket key) hs.allKeys := by
                  rw [List.getD_eq_getElem?_getD, List.getElem?_eq_getElem hR2]
                  simp only [Option.getD_some]
                  exact List.getElem_mem hR2
                exact (mem_keysEq.mp h1mem).2
            rw [if_pos hcond2, List.getElem?_set_self hj, Option.map_some']
            have hMne : (keysEq hs.buckets.length (hs.bucket key) hs.allKeys).eraseIdx 0 ≠ [] := by
              intro hnil
              have := hMlen
              rw [hnil] at this
              simp at this
              omega
            rw [if_neg hMne]
            simp only [Option.map_some', if_pos (show e < e + 1 by omega)]
            rw [he]
            simp
          · have hR1 : (keysEq hs.buckets.length (hs.bucket key) hs.allKeys).length = 1 := by
              omega
            have hcond2 : ¬ (e + 1 < hs.allKeys.length ∧
                bucketIdx hs.buckets.length (hs.allKeys.getD (e + 1) 0) = hs.bucket key) := by
              cases hC : keysGt hs.buckets.length (hs.bucket key) hs.allKeys with
              | nil =>
                intro hcc
                have : hs.allKeys.length =
                    (keysLt hs.buckets.length (hs.bucket key) hs.allKeys).length + 1 := by
                  rw [hlenl, hR1, hC]
                  simp
                omega
              | cons c0 C' =>
                intro hcc
                have hgd1 : hs.allKeys.getD (e + 1) 0 = c0 := by
                  rw [he]
                  nth_rewrite 1 [hdecompA]
                  have harith : (keysLt hs.buckets.length (hs.bucket key)
                      hs.allKeys).length + 0 + 1 =
                      (keysLt hs.buckets.length (hs.bucket key) hs.allKeys).length + 1 := by
                    omega
                  rw [harith, getD_append_mid]
                  have h2 : (keysEq hs.buckets.length (hs.bucket key) hs.allKeys ++
                      keysGt hs.buckets.length (hs.bucket key) hs.allKeys).getD 1 0 =
                      (keysGt hs.buckets.length (hs.bucket key) hs.allKeys).getD 0 0 := by
                    have h3 : (1 : Nat) = (keysEq hs.buckets.length (hs.bucket key)
                        hs.allKeys).length + 0 := by omega
                    rw [h3, getD_append_mid]
                  rw [h2, hC]
                  rfl
                have hc0 : c0 ∈ keysGt hs.buckets.length (hs.bucket key) hs.allKeys := by
                  rw [hC]
                  exact List.mem_cons_self _ _
                have := (mem_keysGt.mp hc0).2
                rw [hgd1] at hcc
                omega
            rw [if_neg hcond2, List.getElem?_set_self hj, Option.map_some']
            have hMnil : (keysEq hs.buckets.length (hs.bucket key) hs.allKeys).eraseIdx 0 = [] := by
              have := hMlen
              rw [hR1] at this
              have hlen0 : ((keysEq hs.buckets.length (hs.bucket key)
                  hs.allKeys).eraseIdx 0).length = 0 := by omega
              exact List.length_eq_zero.mp hlen0
            rw [if_pos hMnil]
            rfl
        · have hcond1 : ¬ (hs.buckets.getD (hs.bucket key) none = some e) := by
            rw [hslot]
            intro hcc
            have : (keysLt hs.buckets.length (hs.bucket key) hs.allKeys).length = e := by
              injection hcc
            omega
          rw [if_neg (by rw [← hslot]; exact hcond1)]
          rw [hbjq _ hj, Option.map_some', findIdx?_bucket _ _ _ hsort, if_neg hRne]
          have hMne : (keysEq hs.buckets.length (hs.bucket key) hs.allKeys).eraseIdx r ≠ [] := by
            intro hnil
            rw [hnil] at hMlen
            simp at hMlen
            omega
          rw [if_neg hMne, Option.map_some']
          congr 2
          rw [if_neg (by omega)]
      · rw [List.getElem?_map, hupd_ne j hjb, hbjq j hj, bucketsOf_getElem? _ hj,
          findIdx?_erase_ne (e := e) key hWF hMmem hMlen hjb (by omega) (by omega)]
        rfl
    · rw [List.getElem?_eq_none, List.getElem?_eq_none]
      · rw [length_bucketsOf]
        omega
      · rw [List.length_map, hlenupd]
        omega
  refine ⟨⟨?_, ?_, ?_, ?_, ?_, ?_, ?_⟩, hperm, hcnt, hlenB, hmaxl, hcpi2⟩
  · rw [hlenB]
    exact hpos0
  · rw [hlenB]
    exact hmem
  · rw [hcpi2]
    exact hcpi
  · rw [hcnt, hak, List.length_eraseIdx_of_lt hel, hcount]
  · exact hsub.nodup hnodup
  · rw [hlenB]
    show ((hs.eraseKey key).allKeys).Pairwise _
    rw [hm]
    exact hsortm
  · rw [hlenB]
    exact hbuckets

/-! ### The load-factor setter, the constructor, and folded insertions -/

theorem WF_set_maxLF {sizes : List Nat} {hs : HashSet} (v : Rat) (hWF : WF sizes hs) :
    WF sizes { hs with maxLFactor := v } :=
  hWF

theorem setMaxLoadFactor_spec {sizes : List Nat} {hs : HashSet} (v : Rat)
    (hGS : GoodSizes sizes) (hWF : WF sizes hs) :
    WF sizes (hs.setMaxLoadFactor sizes v) ∧
      (hs.setMaxLoadFactor sizes v).maxLFactor = v ∧
      (hs.setMaxLoadFactor sizes v).allKeys.Perm hs.allKeys ∧
      (hs.setMaxLoadFactor sizes v).countElements = hs.countElements := by
  rw [HashSet.setMaxLoadFactor]
  by_cases hcond : ({ hs with maxLFactor := v } : HashSet).loadFactor > v
  · rw [if_pos hcond]
    cases hfind : ((List.range sizes.length).drop (hs.currentPrimeIndex + 1)).find?
        (fun i => decide (mkRat hs.countElements (sizes.getD i 0) ≤ v)) with
    | none => exact ⟨WF_set_maxLF v hWF, rfl, List.Perm.refl _, rfl⟩
    | some i =>
      obtain ⟨hWF2, hperm2, hcnt2, hmax2, _⟩ :=
        rehash_WF hGS (WF_set_maxLF v hWF) (sizes.getD i 0)
      exact ⟨hWF2, hmax2, hperm2, hcnt2⟩
  · rw [if_neg hcond]
    exact ⟨WF_set_maxLF v hWF, rfl, List.Perm.refl _, rfl⟩

theorem new_WF (sizes : List Nat) (hGS : GoodSizes sizes) : WF sizes (HashSet.new sizes) := by
  have hlen : 0 < sizes.length := List.length_pos.mpr hGS.1
  have hget : sizes.getD 0 0 = sizes[0] := List.getD_eq_getElem sizes 0 hlen
  have hmem : sizes.getD 0 0 ∈ sizes := by
    rw [hget]
    exact List.getElem_mem hlen
  have hpos : 0 < sizes.getD 0 0 := hGS.2.2 _ hmem
  refine ⟨?_, ?_, ?_, rfl, List.nodup_nil, List.Pairwise.nil, ?_⟩
  · simpa [HashSet.new] using hpos
  · simpa [HashSet.new] using hmem
  · simpa [HashSet.new] using hlen
  · show List.replicate (sizes.getD 0 0) none = bucketsOf (List.replicate (sizes.getD 0 0)
      (none : Option Nat)).length []
    rw [List.length_replicate, bucketsOf]
    have h1 : ∀ b ∈ List.range (sizes.getD 0 0),
        (List.findIdx? (fun k => decide (bucketIdx (sizes.getD 0 0) k = b)) ([] : List Int)) =
          (none : Option Nat) := by
      intro b _
      rfl
    rw [List.map_congr_left h1, List.map_const', List.length_range]

theorem insertNoGrow_bucketCount (hs : HashSet) (key : Int) :
    (hs.insertNoGrow key).bucketCount = hs.bucketCount := by
  rw [HashSet.bucketCount, HashSet.bucketCount]
  show (if _ then _ else _ : List (Option Nat)).length = _
  split
  · rw [List.length_set, shiftUp_length]
  · rw [shiftUp_length]

theorem insert_no_trigger_bucketCount (sizes : List Nat) (hs : HashSet) (key : Int)
    (h : ¬ hs.loadFactor > hs.maxLFactor) :
    (hs.insert sizes key).bucketCount = hs.bucketCount := by
  rw [HashSet.insert]
  by_cases hc : hs.contains key = true
  · rw [if_pos hc]
  · rw [if_neg hc, if_neg (fun hx => h hx.1)]
    exact insertNoGrow_bucketCount hs key

theorem foldl_insert_spec {sizes : List Nat} (hGS : GoodSizes sizes) :
    ∀ (ks : List Int) (s : HashSet), WF sizes s →
      WF sizes (ks.foldl (HashSet.insert sizes) s) ∧
      (ks.foldl (HashSet.insert sizes) s).allKeys.toFinset =
        s.allKeys.toFinset ∪ ks.toFinset := by
  intro ks
  induction ks with
  | nil =>
    intro s hWFs
    exact ⟨hWFs, by simp⟩
  | cons k t ih =>
    intro s hWFs
    rw [List.foldl_cons]
    by_cases hc : s.contains k = true
    · have hins : s.insert sizes k = s := by rw [HashSet.insert, if_pos hc]
      rw [hins]
      obtain ⟨hWF2, hset⟩ := ih s hWFs
      refine ⟨hWF2, ?_⟩
      rw [hset, List.toFinset_cons]
      have hkmem : k ∈ s.allKeys.toFinset := by
        rw [List.mem_toFinset]
        exact (contains_iff_mem hWFs k).mp hc
      rw [Finset.union_insert, Finset.insert_eq_self.mpr (Finset.mem_union_left _ hkmem)]
    · have hc2 : s.contains k = false := Bool.eq_false_iff.mpr hc
      obtain ⟨hWF1, hperm1, _, _, _, _⟩ := insert_spec hGS hWFs hc2
      obtain ⟨hWF2, hset⟩ := ih _ hWF1
      refine ⟨hWF2, ?_⟩
      rw [hset, List.toFinset_eq_of_perm _ _ hperm1, List.toFinset_cons, List.toFinset_cons]
      rw [Finset.insert_union, Finset.union_insert]

theorem eraseKey_noop (hs : HashSet) (key : Int) (h : hs.contains key = false) :
    hs.eraseKey key = hs := by
  rw [HashSet.eraseKey, (find_eq_none_iff hs key).mpr h]

theorem loadFactor_eq_div (hs : HashSet) :
    hs.loadFactor =
      if 0 < hs.bucketCount then (hs.countElements : Rat) / (hs.bucketCount : Rat) else 0 := by
  rw [HashSet.loadFactor, Rat.mkRat_eq_div]
  push_cast
  rfl

/-! ### The claims -/

/-- C1 (counterexample): with Sizing Table `[7, 17]` and default max load
factor `1.0`, after inserting the 8 distinct keys `1..8` into a fresh
instance, growth to a larger table entry is still available
(`currentPrimeIndex + 1 < sizes.length`), yet `loadFactor() = 8/7` exceeds
`maxLoadFactor()` and `bucketCount()` is still `7`, not `17`: the grow did
not happen during the 8th insert. -/
theorem spec_C1_counterexample :
    (([1, 2, 3, 4, 5, 6, 7, 8] : List Int).foldl (HashSet.insert specSizes)
        (HashSet.new specSizes)).currentPrimeIndex + 1 < specSizes.length ∧
    (([1, 2, 3, 4, 5, 6, 7, 8] : List Int).foldl (HashSet.insert specSizes)
        (HashSet.new specSizes)).loadFactor >
      (([1, 2, 3, 4, 5, 6, 7, 8] : List Int).foldl (HashSet.insert specSizes)
        (HashSet.new specSizes)).maxLoadFactor ∧
    (([1, 2, 3, 4, 5, 6, 7, 8] : List Int).foldl (HashSet.insert specSizes)
        (HashSet.new specSizes)).bucketCount = 7 ∧
    ¬ (([1, 2, 3, 4, 5, 6, 7, 8] : List Int).foldl (HashSet.insert specSizes)
        (HashSet.new specSizes)).loadFactor ≤
      (([1, 2, 3, 4, 5, 6, 7, 8] : List Int).foldl (HashSet.insert specSizes)
        (HashSet.new specSizes)).maxLoadFactor ∧
    ¬ (([1, 2, 3, 4, 5, 6, 7, 8] : List Int).foldl (HashSet.insert specSizes)
        (HashSet.new specSizes)).bucketCount = 17 := by
  decide

/-- C1 (amended): `insert` checks the PRE-insert ratio against the threshold,
so an insert that does not trigger growth leaves the bucket count unchanged
even if the load factor then exceeds the threshold.  With Sizing Table
`[7, 17]` and default max load factor `1.0`, inserting 8 distinct keys into a
fresh instance leaves `bucketCount() = 7` with `loadFactor() = 8/7 > 1`; the
grow to 17 buckets happens during the 9th distinct insert, after which
`bucketCount() = 17` and `loadFactor() ≤ maxLoadFactor()`. -/
theorem spec_C1 :
    (∀ (sizes : List Nat) (hs : HashSet) (key : Int),
      ¬ hs.loadFactor > hs.maxLFactor →
        (hs.insert sizes key).bucketCount = hs.bucketCount) ∧
    (([1, 2, 3, 4, 5, 6, 7, 8] : List Int).foldl (HashSet.insert specSizes)
        (HashSet.new specSizes)).bucketCount = 7 ∧
    (([1, 2, 3, 4, 5, 6, 7, 8] : List Int).foldl (HashSet.insert specSizes)
        (HashSet.new specSizes)).loadFactor = 8 / 7 ∧
    (([1, 2, 3, 4, 5, 6, 7, 8, 9] : List Int).foldl (HashSet.insert specSizes)
        (HashSet.new specSizes)).bucketCount = 17 ∧
    (([1, 2, 3, 4, 5, 6, 7, 8, 9] : List Int).foldl (HashSet.insert specSizes)
        (HashSet.new specSizes)).loadFactor ≤
      (([1, 2, 3, 4, 5, 6, 7, 8, 9] : List Int).foldl (HashSet.insert specSizes)
        (HashSet.new specSizes)).maxLoadFactor := by
  refine ⟨insert_no_trigger_bucketCount, by decide, ?_, by decide, by decide⟩
  have h : (([1, 2, 3, 4, 5, 6, 7, 8] : List Int).foldl (HashSet.insert specSizes)
      (HashSet.new specSizes)).loadFactor = mkRat 8 7 := by decide
  rw [h, Rat.mkRat_eq_div]
  norm_num

theorem spec_C1_witness :
    ¬ (HashSet.new specSizes).loadFactor > (HashSet.new specSizes).maxLFactor ∧
    ((HashSet.new specSizes).insert specSizes 5).bucketCount =
      (HashSet.new specSizes).bucketCount :=
  ⟨by decide, spec_C1.1 specSizes (HashSet.new specSizes) 5 (by decide)⟩

/-- C2: on a well-formed instance, `rehash` with any target size preserves the
set of keys `contains` reports and preserves `size()`. -/
theorem spec_C2 {sizes : List Nat} {hs : HashSet} (hGS : GoodSizes sizes)
    (hWF : WF sizes hs) (n : Nat) :
    (∀ key : Int, (hs.rehash sizes n).contains key = hs.contains key) ∧
    (hs.rehash sizes n).size = hs.size := by
  obtain ⟨hWF2, hperm2, hcnt2, _, _⟩ := rehash_WF hGS hWF n
  refine ⟨?_, hcnt2⟩
  intro key
  have hiff : ((hs.rehash sizes n).contains key = true) ↔ (hs.contains key = true) := by
    rw [contains_iff_mem hWF2, contains_iff_mem hWF, hperm2.mem_iff]
  cases hcc : (hs.rehash sizes n).contains key with
  | true => exact (hiff.mp hcc).symm
  | false =>
    cases hc2 : hs.contains key with
    | true => exact absurd (hiff.mpr hc2) (by rw [hcc]; exact Bool.false_ne_true)
    | false => rfl

theorem spec_C2_witness :
    GoodSizes specSizes ∧
    WF specSizes (([1, 2, 3] : List Int).foldl (HashSet.insert specSizes)
      (HashSet.new specSizes)) ∧
    ((([1, 2, 3] : List Int).foldl (HashSet.insert specSizes)
        (HashSet.new specSizes)).rehash specSizes 17).contains 2 =
      (([1, 2, 3] : List Int).foldl (HashSet.insert specSizes)
        (HashSet.new specSizes)).contains 2 ∧
    ((([1, 2, 3] : List Int).foldl (HashSet.insert specSizes)
        (HashSet.new specSizes)).rehash specSizes 17).size =
      (([1, 2, 3] : List Int).foldl (HashSet.insert specSizes)
        (HashSet.new specSizes)).size :=
  ⟨by decide, by decide, (spec_C2 (by decide) (by decide) 17).1 2,
    (spec_C2 (by decide) (by decide) 17).2⟩

/-- C3: every mutating operation — `insert`, `erase(key)`, `rehash`, and the
`maxLoadFactor` setter — leaves the backing list bucket-sorted, so iteration
from `begin()` to `end()` visits each bucket's keys as one contiguous run, in
ascending bucket order; on any well-formed state the iteration order
decomposes, for every bucket `b`, into the keys of earlier buckets, then
bucket `b`'s run, then the keys of later buckets. -/
theorem spec_C3 {sizes : List Nat} {hs : HashSet} (hGS : GoodSizes sizes)
    (hWF : WF sizes hs) :
    (∀ key : Int,
      BSorted (hs.insert sizes key).bucketCount (hs.insert sizes key).toList) ∧
    (∀ key : Int, BSorted (hs.eraseKey key).bucketCount (hs.eraseKey key).toList) ∧
    (∀ n : Nat, BSorted (hs.rehash sizes n).bucketCount (hs.rehash sizes n).toList) ∧
    (∀ v : Rat, BSorted (hs.setMaxLoadFactor sizes v).bucketCount
      (hs.setMaxLoadFactor sizes v).toList) ∧
    (∀ b : Nat, hs.toList = keysLt hs.bucketCount b hs.toList ++
      (keysEq hs.bucketCount b hs.toList ++ keysGt hs.bucketCount b hs.toList)) := by
  refine ⟨?_, ?_, ?_, ?_, ?_⟩
  · intro key
    by_cases hc : hs.contains key = true
    · have h : hs.insert sizes key = hs := by rw [HashSet.insert, if_pos hc]
      rw [h]
      exact hWF.2.2.2.2.2.1
    · have hc2 : hs.contains key = false := Bool.eq_false_iff.mpr hc
      exact (insert_spec hGS hWF hc2).1.2.2.2.2.2.1
  · intro key
    by_cases hc : hs.contains key = true
    · exact (eraseKey_spec hWF hc).1.2.2.2.2.2.1
    · have hc2 : hs.contains key = false := Bool.eq_false_iff.mpr hc
      rw [eraseKey_noop hs key hc2]
      exact hWF.2.2.2.2.2.1
  · intro n
    exact (rehash_WF hGS hWF n).1.2.2.2.2.2.1
  · intro v
    exact (setMaxLoadFactor_spec v hGS hWF).1.2.2.2.2.2.1
  · intro b
    exact bsorted_decomp hs.buckets.length b hs.allKeys hWF.2.2.2.2.2.1

theorem spec_C3_witness :
    GoodSizes specSizes ∧
    WF specSizes (([1, 2, 3] : List Int).foldl (HashSet.insert specSizes)
      (HashSet.new specSizes)) ∧
    BSorted ((([1, 2, 3] : List Int).foldl (HashSet.insert specSizes)
        (HashSet.new specSizes)).insert specSizes 10).bucketCount
      ((([1, 2, 3] : List Int).foldl (HashSet.insert specSizes)
        (HashSet.new specSizes)).insert specSizes 10).toList ∧
    BSorted ((([1, 2, 3] : List Int).foldl (HashSet.insert specSizes)
        (HashSet.new specSizes)).eraseKey 2).bucketCount
      ((([1, 2, 3] : List Int).foldl (HashSet.insert specSizes)
        (HashSet.new specSizes)).eraseKey 2).toList ∧
    BSorted ((([1, 2, 3] : List Int).foldl (HashSet.insert specSizes)
        (HashSet.new specSizes)).rehash specSizes 17).bucketCount
      ((([1, 2, 3] : List Int).foldl (HashSet.insert specSizes)
        (HashSet.new specSizes)).rehash specSizes 17).toList :=
  ⟨by decide, by decide,
    (@spec_C3 specSizes (([1, 2, 3] : List Int).foldl (HashSet.insert specSizes)
      (HashSet.new specSizes)) (by decide) (by decide)).1 10,
    (@spec_C3 specSizes (([1, 2, 3] : List Int).foldl (HashSet.insert specSizes)
      (HashSet.new specSizes)) (by decide) (by decide)).2.1 2,
    (@spec_C3 specSizes (([1, 2, 3] : List Int).foldl (HashSet.insert specSizes)
      (HashSet.new specSizes)) (by decide) (by decide)).2.2.1 17⟩

/-- C4: for a positive bucket count `c`, the bucket of a key is always a
valid index (`bucket(key) < c`) and agrees with the mathematical (Euclidean,
always-nonnegative) remainder of the key modulo `c`, the negative-adjustment
branch compensating exactly for C++ truncating division. -/
theorem spec_C4 (c : Nat) (k : Int) (hc : 0 < c) :
    bucketIdx c k < c ∧ (bucketIdx c k : Int) = k % (c : Int) :=
  ⟨bucketIdx_lt c k hc, bucketIdx_cast c k hc⟩

theorem spec_C4_witness :
    (0 < 7 ∧ (bucketIdx 7 (-5) < 7 ∧ (bucketIdx 7 (-5) : Int) = (-5) % (7 : Int))) ∧
    bucketIdx 7 (-5) = 2 :=
  ⟨⟨by decide, spec_C4 7 (-5) (by decide)⟩, by decide⟩

/-- C5 (counterexample): `rehash 100` on a fresh instance with Sizing Table
`[7, 17]` takes the fallback branch (no entry is ≥ 100): the bucket count
becomes the last entry `17`, but `currentPrimeIndex` stays `0`, so the table
entry at the stored index is `7`, not the actual bucket count. -/
theorem spec_C5_counterexample :
    ((HashSet.new specSizes).rehash specSizes 100).bucketCount = 17 ∧
    ((HashSet.new specSizes).rehash specSizes 100).currentPrimeIndex = 0 ∧
    specSizes.getD
      ((HashSet.new specSizes).rehash specSizes 100).currentPrimeIndex 0 = 7 ∧
    ¬ ((HashSet.new specSizes).rehash specSizes 100).bucketCount =
      specSizes.getD
        ((HashSet.new specSizes).rehash specSizes 100).currentPrimeIndex 0 := by
  decide

/-- C5 (amended): when some Sizing Table entry is at least the requested
size, `rehash` moves to the first (hence, for an ascending table, smallest
adequate) such entry and records its index; when every entry is smaller, it
falls back to the last entry for the bucket count but leaves
`currentPrimeIndex` unchanged, so the stored index then need not describe the
actual bucket count. -/
theorem spec_C5 {sizes : List Nat} (hGS : GoodSizes sizes) (hs : HashSet) (n : Nat) :
    ((∃ s ∈ sizes, n ≤ s) →
      ∃ i, i < sizes.length ∧
        (hs.rehash sizes n).bucketCount = sizes.getD i 0 ∧
        (hs.rehash sizes n).currentPrimeIndex = i ∧
        n ≤ sizes.getD i 0 ∧
        ∀ s ∈ sizes, n ≤ s → sizes.getD i 0 ≤ s) ∧
    ((∀ s ∈ sizes, s < n) →
      (hs.rehash sizes n).bucketCount = sizes.getLastD 0 ∧
      (hs.rehash sizes n).currentPrimeIndex = hs.currentPrimeIndex) := by
  constructor
  · rintro ⟨s, hsmem, hns⟩
    cases hf : sizesFound sizes n with
    | none => exact absurd hns (by have := sizesFound_none hf s hsmem; omega)
    | some i =>
      obtain ⟨hilen, hle, _⟩ := sizesFound_some hf
      exact ⟨i, hilen, by rw [rehash_bucketCount_eq, newBucketCount_some hf],
        rehash_cpi_some hs hf, hle, sizesFound_min hGS hf⟩
  · intro hall
    have hnone : sizesFound sizes n = none := by
      rw [sizesFound, List.find?_eq_none]
      intro j hj
      have hjlen := List.mem_range.mp hj
      simp only [decide_eq_true_eq, Nat.not_le]
      have hmem : sizes.getD j 0 ∈ sizes := by
        rw [List.getD_eq_getElem _ _ hjlen]
        exact List.getElem_mem hjlen
      exact hall _ hmem
    exact ⟨by rw [rehash_bucketCount_eq, newBucketCount_none hnone],
      rehash_cpi_none hs hnone⟩

theorem spec_C5_witness :
    (GoodSizes specSizes ∧ (∀ s ∈ specSizes, s < 100)) ∧
    ((HashSet.new specSizes).rehash specSizes 100).bucketCount =
      specSizes.getLastD 0 ∧
    ((HashSet.new specSizes).rehash specSizes 100).currentPrimeIndex =
      (HashSet.new specSizes).currentPrimeIndex :=
  ⟨⟨by decide, by decide⟩,
    (spec_C5 (by decide) (HashSet.new specSizes) 100).2 (by decide)⟩

/-- C6: `insert` of an already-contained key is a no-op — the state, hence
`size()` and the iteration sequence, is unchanged — and consequently folding
any sequence of inserts into a fresh instance yields a `size()` equal to the
number of distinct inserted keys. -/
theorem spec_C6 {sizes : List Nat} (hGS : GoodSizes sizes) :
    (∀ (hs : HashSet) (key : Int), hs.contains key = true →
      hs.insert sizes key = hs ∧
      (hs.insert sizes key).size = hs.size ∧
      (hs.insert sizes key).toList = hs.toList) ∧
    (∀ ks : List Int,
      (ks.foldl (HashSet.insert sizes) (HashSet.new sizes)).size = ks.toFinset.card) := by
  constructor
  · intro hs key hc
    have h : hs.insert sizes key = hs := by rw [HashSet.insert, if_pos hc]
    exact ⟨h, by rw [h], by rw [h]⟩
  · intro ks
    obtain ⟨hWFf, hset⟩ := foldl_insert_spec hGS ks (HashSet.new sizes) (new_WF sizes hGS)
    have hnodupf := hWFf.2.2.2.2.1
    have hcountf := hWFf.2.2.2.1
    rw [HashSet.size, hcountf, ← List.toFinset_card_of_nodup hnodupf, hset]
    simp [HashSet.new]

theorem spec_C6_witness :
    (GoodSizes specSizes ∧
      (([1, 2, 3] : List Int).foldl (HashSet.insert specSizes)
        (HashSet.new specSizes)).contains 2 = true) ∧
    (([1, 2, 3] : List Int).foldl (HashSet.insert specSizes)
        (HashSet.new specSizes)).insert specSizes 2 =
      ([1, 2, 3] : List Int).foldl (HashSet.insert specSizes) (HashSet.new specSizes) ∧
    (([1, 2, 2, 3, 1] : List Int).foldl (HashSet.insert specSizes)
        (HashSet.new specSizes)).size = ([1, 2, 2, 3, 1] : List Int).toFinset.card :=
  ⟨⟨by decide, by decide⟩,
    ((@spec_C6 specSizes (by decide)).1
      (([1, 2, 3] : List Int).foldl (HashSet.insert specSizes)
        (HashSet.new specSizes)) 2 (by decide)).1,
    (@spec_C6 specSizes (by decide)).2 [1, 2, 2, 3, 1]⟩

/-- C7: round trip on a well-formed state — immediately after
`insert(k)` the set contains `k`, and after a subsequent `erase(k)` it no
longer does. -/
theorem spec_C7 {sizes : List Nat} {hs : HashSet} (hGS : GoodSizes sizes)
    (hWF : WF sizes hs) (key : Int) :
    (hs.insert sizes key).contains key = true ∧
    ((hs.insert sizes key).eraseKey key).contains key = false := by
  by_cases hc : hs.contains key = true
  · have h : hs.insert sizes key = hs := by rw [HashSet.insert, if_pos hc]
    rw [h]
    refine ⟨hc, ?_⟩
    obtain ⟨hWFe, hperme, _⟩ := eraseKey_spec hWF hc
    have hnodup : (key :: (hs.eraseKey key).allKeys).Nodup :=
      hperme.nodup_iff.mp hWF.2.2.2.2.1
    have hkeynot : key ∉ (hs.eraseKey key).allKeys := (List.nodup_cons.mp hnodup).1
    cases hcc : (hs.eraseKey key).contains key with
    | false => rfl
    | true => exact absurd ((contains_iff_mem hWFe key).mp hcc) hkeynot
  · have hc2 : hs.contains key = false := Bool.eq_false_iff.mpr hc
    obtain ⟨hWF1, hperm1, _⟩ := insert_spec hGS hWF hc2
    have hcont1 : (hs.insert sizes key).contains key = true :=
      (contains_iff_mem hWF1 key).mpr (hperm1.mem_iff.mpr (List.mem_cons_self _ _))
    refine ⟨hcont1, ?_⟩
    obtain ⟨hWFe, hperme, _⟩ := eraseKey_spec hWF1 hcont1
    have hnodup : (key :: ((hs.insert sizes key).eraseKey key).allKeys).Nodup :=
      hperme.nodup_iff.mp hWF1.2.2.2.2.1
    have hkeynot := (List.nodup_cons.mp hnodup).1
    cases hcc : ((hs.insert sizes key).eraseKey key).contains key with
    | false => rfl
    | true => exact absurd ((contains_iff_mem hWFe key).mp hcc) hkeynot

theorem spec_C7_witness :
    (GoodSizes specSizes ∧
      WF specSizes (([1, 2, 3] : List Int).foldl (HashSet.insert specSizes)
        (HashSet.new specSizes))) ∧
    ((([1, 2, 3] : List Int).foldl (HashSet.insert specSizes)
        (HashSet.new specSizes)).insert specSizes (-5)).contains (-5) = true ∧
    (((([1, 2, 3] : List Int).foldl (HashSet.insert specSizes)
        (HashSet.new specSizes)).insert specSizes (-5)).eraseKey (-5)).contains (-5) =
      false :=
  ⟨⟨by decide, by decide⟩,
    @spec_C7 specSizes (([1, 2, 3] : List Int).foldl (HashSet.insert specSizes)
      (HashSet.new specSizes)) (by decide) (by decide) (-5)⟩

/-- C9: `erase(key)` on an absent key is a total no-op: the whole state — in
particular `size()`, the iteration sequence and the bucket table — is
unchanged. -/
theorem spec_C9 (hs : HashSet) (key : Int) (h : hs.contains key = false) :
    hs.eraseKey key = hs ∧
    (hs.eraseKey key).size = hs.size ∧
    (hs.eraseKey key).toList = hs.toList ∧
    (hs.eraseKey key).buckets = hs.buckets := by
  have he := eraseKey_noop hs key h
  exact ⟨he, by rw [he], by rw [he], by rw [he]⟩

theorem spec_C9_witness :
    (([1, 2, 3] : List Int).foldl (HashSet.insert specSizes)
        (HashSet.new specSizes)).contains 99 = false ∧
    (([1, 2, 3] : List Int).foldl (HashSet.insert specSizes)
        (HashSet.new specSizes)).eraseKey 99 =
      ([1, 2, 3] : List Int).foldl (HashSet.insert specSizes) (HashSet.new specSizes) :=
  ⟨by decide,
    (spec_C9 (([1, 2, 3] : List Int).foldl (HashSet.insert specSizes)
      (HashSet.new specSizes)) 99 (by decide)).1⟩

/-- C10: when `insert` of a new key finds the load factor above the threshold
and a further Sizing Table entry available, it rehashes to exactly
`sizes[currentPrimeIndex + 1]`: the bucket count becomes that next entry and
the stored index advances by exactly one position, regardless of how far the
load factor exceeds the threshold. -/
theorem spec_C10 {sizes : List Nat} {hs : HashSet} {key : Int}
    (hGS : GoodSizes sizes) (hWF : WF sizes hs) (hnc : hs.contains key = false)
    (htrig : hs.loadFactor > hs.maxLFactor ∧ hs.currentPrimeIndex + 1 < sizes.length) :
    (hs.insert sizes key).bucketCount = sizes.getD (hs.currentPrimeIndex + 1) 0 ∧
    (hs.insert sizes key).currentPrimeIndex = hs.currentPrimeIndex + 1 := by
  obtain ⟨_, _, _, _, hgrow, _⟩ := insert_spec hGS hWF hnc
  obtain ⟨hbc, hcpi⟩ := hgrow htrig
  have hf : sizesFound sizes (sizes.getD (hs.currentPrimeIndex + 1) 0) =
      some (hs.currentPrimeIndex + 1) := sizesFound_getD hGS htrig.2
  exact ⟨by rw [hbc, newBucketCount_some hf], by rw [hcpi, rehash_cpi_some _ hf]⟩

theorem spec_C10_witness :
    (GoodSizes specSizes ∧
      WF specSizes (([1, 2, 3, 4, 5, 6, 7, 8] : List Int).foldl
        (HashSet.insert specSizes) (HashSet.new specSizes)) ∧
      (([1, 2, 3, 4, 5, 6, 7, 8] : List Int).foldl (HashSet.insert specSizes)
        (HashSet.new specSizes)).contains 9 = false ∧
      ((([1, 2, 3, 4, 5, 6, 7, 8] : List Int).foldl (HashSet.insert specSizes)
          (HashSet.new specSizes)).loadFactor >
        (([1, 2, 3, 4, 5, 6, 7, 8] : List Int).foldl (HashSet.insert specSizes)
          (HashSet.new specSizes)).maxLFactor ∧
        (([1, 2, 3, 4, 5, 6, 7, 8] : List Int).foldl (HashSet.insert specSizes)
          (HashSet.new specSizes)).currentPrimeIndex + 1 < specSizes.length)) ∧
    ((([1, 2, 3, 4, 5, 6, 7, 8] : List Int).foldl (HashSet.insert specSizes)
        (HashSet.new specSizes)).insert specSizes 9).bucketCount =
      specSizes.getD ((([1, 2, 3, 4, 5, 6, 7, 8] : List Int).foldl
        (HashSet.insert specSizes) (HashSet.new specSizes)).currentPrimeIndex + 1) 0 ∧
    ((([1, 2, 3, 4, 5, 6, 7, 8] : List Int).foldl (HashSet.insert specSizes)
        (HashSet.new specSizes)).insert specSizes 9).currentPrimeIndex =
      (([1, 2, 3, 4, 5, 6, 7, 8] : List Int).foldl (HashSet.insert specSizes)
        (HashSet.new specSizes)).currentPrimeIndex + 1 :=
  ⟨⟨by decide, by decide, by decide, by decide⟩,
    @spec_C10 specSizes (([1, 2, 3, 4, 5, 6, 7, 8] : List Int).foldl
      (HashSet.insert specSizes) (HashSet.new specSizes)) 9
      (by decide) (by decide) (by decide) (by decide)⟩

/-- C8: the `maxLoadFactor` setter stores the new threshold `v`; when the
ratio `countElements / bucketCount` does not exceed `v` the state is otherwise
unchanged; when it does, the setter scans the Sizing Table from the position
just past the current index for the first entry `s` with
`countElements / s ≤ v` and rehashes to it (the new bucket count is exactly
that first adequate entry), and when no such entry exists the buckets are
left untouched — no error. -/
theorem spec_C8 {sizes : List Nat} {hs : HashSet} (v : Rat)
    (hGS : GoodSizes sizes) (hWF : WF sizes hs) :
    (hs.setMaxLoadFactor sizes v).maxLoadFactor = v ∧
    (¬ ({ hs with maxLFactor := v } : HashSet).loadFactor > v →
      hs.setMaxLoadFactor sizes v = { hs with maxLFactor := v }) ∧
    (({ hs with maxLFactor := v } : HashSet).loadFactor > v →
      (∀ i : Nat, ((List.range sizes.length).drop (hs.currentPrimeIndex + 1)).find?
          (fun i => decide (mkRat hs.countElements (sizes.getD i 0) ≤ v)) = some i →
        (hs.setMaxLoadFactor sizes v).bucketCount = sizes.getD i 0 ∧
        hs.currentPrimeIndex < i ∧ i < sizes.length ∧
        mkRat hs.countElements (sizes.getD i 0) ≤ v ∧
        ∀ j : Nat, hs.currentPrimeIndex < j → j < i →
          ¬ mkRat hs.countElements (sizes.getD j 0) ≤ v) ∧
      (((List.range sizes.length).drop (hs.currentPrimeIndex + 1)).find?
          (fun i => decide (mkRat hs.countElements (sizes.getD i 0) ≤ v)) = none →
        hs.setMaxLoadFactor sizes v = { hs with maxLFactor := v })) := by
  have hcpilen := hWF.2.2.1
  refine ⟨(setMaxLoadFactor_spec v hGS hWF).2.1, ?_, fun hcond => ⟨?_, ?_⟩⟩
  · intro hcond
    rw [HashSet.setMaxLoadFactor, if_neg hcond]
  · intro i hfind
    have hpw : (((List.range sizes.length).drop (hs.currentPrimeIndex + 1)).Pairwise
        (· < ·)) :=
      List.Pairwise.sublist (List.drop_sublist _ _) (List.pairwise_lt_range _)
    obtain ⟨hmemL, hp, hrest⟩ := find?_first_sorted hpw hfind
    rw [drop_range, List.mem_range'_1] at hmemL
    have hilen : i < sizes.length := by omega
    have hcpii : hs.currentPrimeIndex < i := by omega
    have hred : hs.setMaxLoadFactor sizes v =
        ({ hs with maxLFactor := v } : HashSet).rehash sizes (sizes.getD i 0) := by
      rw [HashSet.setMaxLoadFactor, if_pos hcond, hfind]
    refine ⟨?_, hcpii, hilen, of_decide_eq_true hp, ?_⟩
    · rw [hred, rehash_bucketCount_eq, newBucketCount_some (sizesFound_getD hGS hilen)]
    · intro j hj1 hj2
      have hjmem : j ∈ (List.range sizes.length).drop (hs.currentPrimeIndex + 1) := by
        rw [drop_range, List.mem_range'_1]
        omega
      exact of_decide_eq_false (hrest j hjmem hj2)
  · intro hfind
    rw [HashSet.setMaxLoadFactor, if_pos hcond, hfind]

theorem spec_C8_witness :
    (GoodSizes specSizes ∧
      WF specSizes (([1, 2, 3] : List Int).foldl (HashSet.insert specSizes)
        (HashSet.new specSizes))) ∧
    ((([1, 2, 3] : List Int).foldl (HashSet.insert specSizes)
        (HashSet.new specSizes)).setMaxLoadFactor specSizes (mkRat 1 10)).maxLoadFactor =
      mkRat 1 10 ∧
    (([1, 2, 3] : List Int).foldl (HashSet.insert specSizes)
        (HashSet.new specSizes)).setMaxLoadFactor specSizes (mkRat 1 10) =
      { ([1, 2, 3] : List Int).foldl (HashSet.insert specSizes) (HashSet.new specSizes)
          with maxLFactor := mkRat 1 10 } :=
  ⟨⟨by decide, by decide⟩,
    (@spec_C8 specSizes (([1, 2, 3] : List Int).foldl (HashSet.insert specSizes)
      (HashSet.new specSizes)) (mkRat 1 10) (by decide) (by decide)).1,
    ((@spec_C8 specSizes (([1, 2, 3] : List Int).foldl (HashSet.insert specSizes)
      (HashSet.new specSizes)) (mkRat 1 10) (by decide) (by decide)).2.2
        (by decide)).2 (by decide)⟩
